import Mathlib

set_option maxHeartbeats 1000000

namespace Reassure

/-- Scalar kinds of the record model (spec §3). -/
inductive SKind where
  | string | integer | float | boolean | timestamp | binary
deriving DecidableEq, Fintype

mutual
/-- Modelled from the spec: the Record Model (§3, §4.1).  The relationalize
engine itself is external to the repository (only its caller transcript is in
src/), so the record tree is modelled from the spec's words: a `Value` is one
of `Null`, `Scalar(kind, literal)`, `Struct(Record)` or `Array(sequence)`.
Scalar literals are carried as their textual representation. -/
inductive Value where
  | null : Value
  | scalar (kind : SKind) (lit : String) : Value
  | struct (fields : Fields) : Value
  | arr (elems : Elems) : Value

/-- Ordered mapping from field name to `Value` (spec §3 Record). -/
inductive Fields where
  | nil : Fields
  | cons (n : String) (v : Value) (fs : Fields) : Fields

/-- Ordered sequence of array element values. -/
inductive Elems where
  | nil : Elems
  | cons (v : Value) (es : Elems) : Elems
end

/-- A record is an ordered mapping from field name to value. -/
abbrev Record := Fields

/-- A field path: ordered sequence of field-name segments (spec §3). -/
abbrev Path := List String

/-- Convert a plain list of named values into `Fields`. -/
def fieldsOf : List (String × Value) → Fields
  | [] => .nil
  | (n, v) :: rest => .cons n v (fieldsOf rest)

/-- Convert a plain list of values into `Elems`. -/
def elemsOf : List Value → Elems
  | [] => .nil
  | v :: rest => .cons v (elemsOf rest)

/-- Convert `Elems` back to a plain list of values. -/
def elemsList : Elems → List Value
  | .nil => []
  | .cons v es => v :: elemsList es

/-- Field lookup by name; `Null` when absent (spec §4.1). -/
def getField : Fields → String → Value
  | .nil, _ => .null
  | .cons m v fs, n => if m = n then v else getField fs n

mutual
/-- Modelled from the spec: path-based lookup (§4.1): return the `Value` at a
path, or `Null` if any intermediate segment is absent or not a `Struct`. -/
def valueAt : Value → Path → Value
  | v, [] => v
  | .struct fs, n :: p => fieldsAt fs n p
  | .null, _ :: _ => .null
  | .scalar _ _, _ :: _ => .null
  | .arr _, _ :: _ => .null

/-- Lookup helper descending into a named field of a struct. -/
def fieldsAt : Fields → String → Path → Value
  | .nil, _, _ => .null
  | .cons m v fs, n, p => if m = n then valueAt v p else fieldsAt fs n p
end

/-- Number of elements of an array value; `0` for anything that is not an
array (used for the `count` root policy and the linkage invariant). -/
def elemCount (v : Value) : Nat :=
  match v with
  | .arr es => (elemsList es).length
  | _ => 0

/-- Observed shape of a path in the unified schema (spec §3 ShapeSet,
condensed to the widened shape): nothing seen / scalar of a widened kind /
struct / array / unresolvable struct-vs-array conflict. -/
inductive Shape where
  | absent | scalarS (k : SKind) | structS | arrayS | conflict
deriving DecidableEq, Fintype

/-- Modelled from the spec: scalar-kind widening (§4.2): equal kinds stay,
integer and float widen to float, any other conflict widens to string. -/
def widenK (a b : SKind) : SKind :=
  if a = b then a
  else if (a = .integer ∧ b = .float) ∨ (a = .float ∧ b = .integer) then .float
  else .string

/-- Modelled from the spec: widening join of observed shapes at one path
(§4.2): `Null` occurrences keep the typed shape; scalars widen by `widenK`;
struct or array wins over scalar; struct against array is an unresolvable
schema conflict (§7), represented by the absorbing `conflict`. -/
def joinShape : Shape → Shape → Shape
  | .absent, s => s
  | s, .absent => s
  | .conflict, _ => .conflict
  | _, .conflict => .conflict
  | .scalarS a, .scalarS b => .scalarS (widenK a b)
  | .scalarS _, .structS => .structS
  | .structS, .scalarS _ => .structS
  | .scalarS _, .arrayS => .arrayS
  | .arrayS, .scalarS _ => .arrayS
  | .structS, .structS => .structS
  | .arrayS, .arrayS => .arrayS
  | .structS, .arrayS => .conflict
  | .arrayS, .structS => .conflict

/-- Top-level shape of one value. -/
def topShape : Value → Shape
  | .null => .absent
  | .scalar k _ => .scalarS k
  | .struct _ => .structS
  | .arr _ => .arrayS

mutual
/-- Modelled from the spec: the shape observed at a path within one value
(§4.2): scalars and structs are visited recursively; an array contributes its
`array` shape at its own path while paths continuing below it are resolved
against the array's elements (joined), building the element schema. -/
def shapeAtV : Value → Path → Shape
  | v, [] => topShape v
  | .struct fs, n :: p => fieldsShapeAt fs n p
  | .arr es, n :: p => elemsShapeJoin es (n :: p)
  | .null, _ :: _ => .absent
  | .scalar _ _, _ :: _ => .absent

/-- Shape lookup descending into a struct field. -/
def fieldsShapeAt : Fields → String → Path → Shape
  | .nil, _, _ => .absent
  | .cons m v fs, n, p => if m = n then shapeAtV v p else fieldsShapeAt fs n p

/-- Joined shape of a path across the elements of an array. -/
def elemsShapeJoin : Elems → Path → Shape
  | .nil, _ => .absent
  | .cons v es, p => joinShape (shapeAtV v p) (elemsShapeJoin es p)
end

/-- The shape a single record exhibits at a path. -/
def recShape (r : Record) (p : Path) : Shape :=
  shapeAtV (.struct r) p

/-- A unified schema: every path mapped to its widened observed shape
(`absent` when the path never carries a typed value). -/
abbrev Schema := Path → Shape

/-- Modelled from the spec: Schema Inference (§4.2): single forward pass over
the records, joining each record's observed shape at every path. -/
def inferSchema (rs : List Record) : Schema :=
  fun p => rs.foldr (fun r a => joinShape (recShape r p) a) .absent

/-- Modelled from the spec: pairwise merge of partial schemas (§5), applying
the widening rule path by path. -/
def mergeSchema (s t : Schema) : Schema :=
  fun p => joinShape (s p) (t p)

mutual
/-- Modelled from the spec: the field paths observed inside one value (§4.2):
a struct contributes each field's path and, recursively, the paths below it;
paths below an array are the union of its elements' paths (used for the
element schema and the auxiliary-table columns). -/
def valuePaths : Value → List Path
  | .null => []
  | .scalar _ _ => []
  | .struct fs => fieldsPaths fs
  | .arr es => elemsPaths es

/-- Paths contributed by a struct's fields. -/
def fieldsPaths : Fields → List Path
  | .nil => []
  | .cons n v fs => ([n] :: (valuePaths v).map (fun q => n :: q)) ++ fieldsPaths fs

/-- Paths contributed by an array's elements. -/
def elemsPaths : Elems → List Path
  | .nil => []
  | .cons v es => valuePaths v ++ elemsPaths es
end

/-- Remove duplicates keeping the first occurrence of each path. -/
def dedupSeenAux : List Path → List Path → List Path
  | [], _ => []
  | p :: ps, seen => if p ∈ seen then dedupSeenAux ps seen else p :: dedupSeenAux ps (p :: seen)

/-- First-occurrence deduplication of a path list. -/
def dedupFirst (ps : List Path) : List Path := dedupSeenAux ps []

/-- All distinct field paths observed across a record collection, in
first-seen order (the support of the inferred schema). -/
def observedPaths (rs : List Record) : List Path :=
  dedupFirst (rs.flatMap fieldsPaths)

/-- Boolean segment-wise test that `p` is a (non-strict) leading part of `q`. -/
def pathLe : Path → Path → Bool
  | [], _ => true
  | _ :: _, [] => false
  | a :: p, b :: q => if a = b then pathLe p q else false

mutual
/-- Modelled from the spec: the joined top-level shape of the elements of the
array found at a path (§4.2 element schema): descends structs by segment and
joins across the elements of intervening arrays; at the array itself it joins
the elements' own top-level shapes. -/
def elemTopV : Value → Path → Shape
  | .arr es, [] => elemsTopJoin es
  | .struct fs, n :: p => fieldsElemTop fs n p
  | .arr es, n :: p => elemsElemTopJoin es (n :: p)
  | .null, _ => .absent
  | .scalar _ _, _ => .absent
  | .struct _, [] => .absent

/-- Element top-shape lookup descending into a struct field. -/
def fieldsElemTop : Fields → String → Path → Shape
  | .nil, _, _ => .absent
  | .cons m v fs, n, p => if m = n then elemTopV v p else fieldsElemTop fs n p

/-- Join of `elemTopV` across the elements of an array. -/
def elemsElemTopJoin : Elems → Path → Shape
  | .nil, _ => .absent
  | .cons v es, p => joinShape (elemTopV v p) (elemsElemTopJoin es p)

/-- Join of the top-level shapes of an array's elements. -/
def elemsTopJoin : Elems → Shape
  | .nil => .absent
  | .cons v es => joinShape (topShape v) (elemsTopJoin es)
end

/-- Joined element top-shape at a path across a whole record collection. -/
def inferElemTop (rs : List Record) (p : Path) : Shape :=
  rs.foldr (fun r a => joinShape (elemTopV (.struct r) p) a) .absent

/-- Auxiliary-table name for an array path: root name and the path segments
joined by the separator (spec §4.3). -/
def tableName (root sep : String) (p : Path) : String :=
  root ++ sep ++ String.intercalate sep p

/-- Dotted/qualified column name of a path (spec §4.3). -/
def colNameOf (p : Path) : String := String.intercalate "." p

/-- Planned column of a flat table: a scalar column of a widened kind, an
always-null column for a path observed only as `Null`, or an element count
column for an array path under the `count` policy (spec §4.4 step 4).  The
lookup path is relative to the table's row value. -/
inductive ColSpec where
  | scalarCol (name : String) (rel : Path) (k : SKind)
  | nullCol (name : String) (rel : Path)
  | countCol (name : String) (rel : Path)
deriving DecidableEq

/-- Column name of a planned column. -/
def ColSpec.cname : ColSpec → String
  | .scalarCol n _ _ => n
  | .nullCol n _ => n
  | .countCol n _ => n

/-- Relative lookup path of a planned column. -/
def ColSpec.crel : ColSpec → Path
  | .scalarCol _ r _ => r
  | .nullCol _ r => r
  | .countCol _ r => r

/-- Root-table policy for array paths (spec §6 configuration,
`arrayRootPolicy`, default `count`). -/
inductive ArrayRootPolicy where
  | count | omit
deriving DecidableEq

mutual
/-- Modelled from the spec: an auxiliary-table plan node (§4.3): the array
path (absolute), the lookup path relative to the parent's row value, the
generated table name, the planned element columns, and the plans of the
arrays nested below it (the transitive foreign-key chain). -/
inductive AuxPlan where
  | node (abs : Path) (rel : Path) (nm : String) (cols : List ColSpec)
      (kids : AuxForest) : AuxPlan

/-- A forest of auxiliary-table plans. -/
inductive AuxForest where
  | nil : AuxForest
  | cons (a : AuxPlan) (rest : AuxForest) : AuxForest
end

/-- `c` is an array path directly below `base`: it extends `base` and no
other array path of `arrs` lies strictly between them. -/
def directChild (arrs : List Path) (base c : Path) : Bool :=
  decide (pathLe base c = true ∧ c ≠ base ∧
    ∀ b ∈ arrs, ¬(pathLe base b = true ∧ pathLe b c = true ∧ b ≠ base ∧ b ≠ c))

/-- The array paths directly below `base`. -/
def directKids (arrs : List Path) (base : Path) : List Path :=
  arrs.filter (fun c => directChild arrs base c)

/-- A non-array path `q` is a column of the table at array path `base`: it
extends `base` and no array path lies strictly between them. -/
def ownedBy (arrs : List Path) (base q : Path) : Bool :=
  decide (pathLe base q = true ∧ q ≠ base ∧
    ∀ b ∈ arrs, ¬(pathLe base b = true ∧ pathLe b q = true ∧ b ≠ base ∧ b ≠ q))

/-- Scalar and always-null columns owned by the table at `base`, with
relative paths and dotted names (spec §4.3). -/
def scalarColsFor (shapes : Path → Shape) (scals : List Path) (arrs : List Path)
    (base : Path) : List ColSpec :=
  (scals.filter (fun q => ownedBy arrs base q)).map (fun q =>
    let rel := q.drop base.length
    match shapes q with
    | .scalarS k => ColSpec.scalarCol (colNameOf rel) rel k
    | _ => ColSpec.nullCol (colNameOf rel) rel)

/-- Element-count columns for the arrays directly below `base`, present only
under the `count` policy (spec §4.4 step 4). -/
def countColsFor (policy : ArrayRootPolicy) (arrs : List Path) (base : Path) :
    List ColSpec :=
  match policy with
  | .omit => []
  | .count => (directKids arrs base).map (fun c =>
      let rel := c.drop base.length
      ColSpec.countCol (colNameOf rel) rel)

/-- The value column of an array whose elements are scalars: the element
itself, widened to `k`. -/
def valColFor (elemTop : Path → Shape) (base : Path) : List ColSpec :=
  match elemTop base with
  | .scalarS k => [ColSpec.scalarCol "val" [] k]
  | _ => []

/-- All planned columns of the auxiliary table at array path `base`
(besides the reserved `id` and `index` columns). -/
def auxColsFor (shapes : Path → Shape) (elemTop : Path → Shape)
    (scals arrs : List Path) (policy : ArrayRootPolicy) (base : Path) :
    List ColSpec :=
  valColFor elemTop base ++ scalarColsFor shapes scals arrs base ++
    countColsFor policy arrs base

/-- Convert a list of auxiliary plans into a forest. -/
def forestOfList : List AuxPlan → AuxForest
  | [] => .nil
  | a :: rest => .cons a (forestOfList rest)

/-- Build the list of auxiliary plans directly below `base`, recursing on a
fuel bound that dominates the longest path. -/
def buildKidsL (root sep : String) (shapes elemTop : Path → Shape)
    (scals arrs : List Path) (policy : ArrayRootPolicy) :
    Nat → Path → List AuxPlan
  | 0, _ => []
  | fuel + 1, base =>
    (directKids arrs base).map (fun c =>
      AuxPlan.node c (c.drop base.length) (tableName root sep c)
        (auxColsFor shapes elemTop scals arrs policy c)
        (forestOfList (buildKidsL root sep shapes elemTop scals arrs policy fuel c)))

mutual
/-- All `(array path, table name)` pairs of a forest of auxiliary plans. -/
def collectT : AuxForest → List (Path × String)
  | .nil => []
  | .cons a rest => collectA a ++ collectT rest

/-- All `(array path, table name)` pairs of one auxiliary plan. -/
def collectA : AuxPlan → List (Path × String)
  | .node ab _ nm _ kids => (ab, nm) :: collectT kids
end

mutual
/-- All plan nodes of a forest, as `(abs, rel, name, cols)` tuples. -/
def nodesT : AuxForest → List (Path × Path × String × List ColSpec)
  | .nil => []
  | .cons a rest => nodesA a ++ nodesT rest

/-- All plan nodes of one auxiliary plan. -/
def nodesA : AuxPlan → List (Path × Path × String × List ColSpec)
  | .node ab rl nm cols kids => (ab, rl, nm, cols) :: nodesT kids
end

/-- Errors of the planning stage (spec §7). -/
inductive PlanError where
  | schemaConflict (p : Path)
  | emptySchema (t : String)
deriving DecidableEq

/-- The planned `TablePlan` (spec §3): root table name, root columns, and the
forest of auxiliary-table plans. -/
structure TablePlan where
  rootName : String
  rootCols : List ColSpec
  forest : AuxForest

/-- Boolean duplicate-freedom test on strings. -/
def nodupB : List String → Bool
  | [] => true
  | x :: xs => !(xs.contains x) && nodupB xs

/-- First path of the list whose generated table name repeats an earlier
one, if any. -/
def firstNameDup (root sep : String) : List Path → List String → Option Path
  | [], _ => none
  | p :: ps, seen =>
    if seen.contains (tableName root sep p) then some p
    else firstNameDup root sep ps (tableName root sep p :: seen)

/-- The non-array paths of a record collection (column candidates): observed
paths whose widened shape is scalar or absent. -/
def scalarish (rs : List Record) : List Path :=
  (observedPaths rs).filter (fun p =>
    match inferSchema rs p with
    | .scalarS _ => true
    | .absent => true
    | _ => false)

/-- The array paths of a record collection, in first-seen order. -/
def arrayPsOf (rs : List Record) : List Path :=
  (observedPaths rs).filter (fun p => inferSchema rs p = Shape.arrayS)

/-- Length of the longest observed path, bounding the plan's nesting depth. -/
def maxPathLen (ps : List Path) : Nat :=
  ps.foldr (fun p a => max p.length a) 0

/-- Planned root-table columns of a record collection: the scalar and
always-null columns not owned by any array, then (under the `count` policy)
one count column per top-level array path (spec §4.3, §4.4 step 4). -/
def plannedRootCols (rs : List Record) (policy : ArrayRootPolicy) : List ColSpec :=
  scalarColsFor (inferSchema rs) (scalarish rs) (arrayPsOf rs) [] ++
    countColsFor policy (arrayPsOf rs) []

/-- Modelled from the spec: the Path Planner (§4.3): derives the `TablePlan`
from the inferred schema.  Struct-vs-array shape conflicts and table-name
collisions raise `SchemaConflictError`; a root table that would have zero
columns raises `EmptySchemaError` (§7); every array path becomes its own
auxiliary table, every other path a column of the root or of the innermost
enclosing array's table. -/
def planOf (root sep : String) (policy : ArrayRootPolicy) (rs : List Record) :
    Except PlanError TablePlan :=
  let paths := observedPaths rs
  let shapes := inferSchema rs
  match paths.find? (fun p => shapes p = Shape.conflict) with
  | some p => .error (.schemaConflict p)
  | none =>
    let arrs := arrayPsOf rs
    match firstNameDup root sep arrs [] with
    | some p => .error (.schemaConflict p)
    | none =>
      let rcols := plannedRootCols rs policy
      if rcols.isEmpty then .error (.emptySchema root)
      else
        .ok ⟨root, rcols,
          forestOfList (buildKidsL root sep shapes (inferElemTop rs)
            (scalarish rs) arrs policy (maxPathLen arrs + 1) [])⟩

/-- A cell of a flat table row: null, a machine integer (surrogate keys,
indices, element counts), or a scalar literal of a widened kind. -/
inductive Cell where
  | cnull
  | cint (n : Nat)
  | clit (k : SKind) (s : String)
deriving DecidableEq

mutual
/-- Lossless textual representation of a value, used by the defensive
coercion of §4.4 step 2. -/
def textOfValue : Value → String
  | .null => ""
  | .scalar _ lit => lit
  | .struct fs => "\x7b" ++ textOfFields fs ++ "\x7d"
  | .arr es => "[" ++ textOfElems es ++ "]"

/-- Textual representation of a struct's fields. -/
def textOfFields : Fields → String
  | .nil => ""
  | .cons n v fs => n ++ ":" ++ textOfValue v ++ ";" ++ textOfFields fs

/-- Textual representation of an array's elements. -/
def textOfElems : Elems → String
  | .nil => ""
  | .cons v es => textOfValue v ++ ";" ++ textOfElems es
end

/-- Modelled from the spec: coercion of a runtime value into a planned scalar
column of widened kind `k` (§4.4 step 2): `Null` stays null, a scalar keeps
its original literal, and a shape-mismatched value is coerced to its textual
representation rather than failing the record. -/
def coerceCell (k : SKind) : Value → Cell
  | .null => .cnull
  | .scalar _ lit => .clit k lit
  | v => .clit k (textOfValue v)

/-- The cell a row value yields for one planned column. -/
def cellFor (v : Value) : ColSpec → Cell
  | .scalarCol _ rel k => coerceCell k (valueAt v rel)
  | .nullCol _ _ => .cnull
  | .countCol _ rel => .cint (elemCount (valueAt v rel))

/-- The data cells of one flat-table row (spec §4.4 step 2 and step 4). -/
def rowFor (v : Value) (cols : List ColSpec) : List (String × Cell) :=
  cols.map (fun c => (c.cname, cellFor v c))

/-- A root-table row: the record's surrogate key and its data cells. -/
structure RootRow where
  key : Nat
  cells : List (String × Cell)
deriving DecidableEq

/-- An auxiliary-table row: the reserved `id` (owning key) and `index`
(0-based array position) columns and the element's data cells (spec §3). -/
structure AuxRow where
  id : Nat
  index : Nat
  cells : List (String × Cell)
deriving DecidableEq

/-- One auxiliary row per array element, indexed from `i0` (spec §4.4 step 3). -/
def idxRows (k : Nat) (cols : List ColSpec) : Nat → List Value → List AuxRow
  | _, [] => []
  | i, e :: es => ⟨k, i, rowFor e cols⟩ :: idxRows k cols (i + 1) es

/-- Elements of an array value as a list; empty for anything else. -/
def elemsList' (v : Value) : List Value :=
  match v with
  | .arr es => elemsList es
  | _ => []

/-- Rows of one auxiliary table contributed by a list of keyed owner values. -/
def ownRows (rel : Path) (cols : List ColSpec) (owners : List (Nat × Value)) :
    List AuxRow :=
  owners.flatMap (fun kv => idxRows kv.1 cols 0 (elemsList' (valueAt kv.2 rel)))

/-- Pair each list element with consecutive keys starting at `c`. -/
def tagFrom (c : Nat) : List Value → List (Nat × Value)
  | [] => []
  | v :: vs => (c, v) :: tagFrom (c + 1) vs

/-- Allocate one fresh intermediate key per array element of every owner,
in order, starting at `c` (spec §4.4 step 3, §9 key allocator). -/
def allocElems (rel : Path) : Nat → List (Nat × Value) → List (Nat × Value) × Nat
  | c, [] => ([], c)
  | c, kv :: rest =>
    let es := elemsList' (valueAt kv.2 rel)
    let res := allocElems rel (c + es.length) rest
    (tagFrom c es ++ res.1, res.2)

mutual
/-- Modelled from the spec: the Flattener over one auxiliary plan (§4.4 step
3): each owner's array at the plan's relative path yields one row per element
with the owner's key as `id` and the position as `index`; every element gets
a newly generated intermediate key and the nested plans are flattened with
the elements as owners, preserving the transitive foreign-key chain. -/
def flattenA : AuxPlan → List (Nat × Value) → Nat → List (String × AuxRow) × Nat
  | .node _ rl nm cols kids, owners, c =>
    let eo := allocElems rl c owners
    let kidRes := flattenF kids eo.1 eo.2
    ((ownRows rl cols owners).map (fun r => (nm, r)) ++ kidRes.1, kidRes.2)

/-- Flatten a forest of auxiliary plans against the same owners. -/
def flattenF : AuxForest → List (Nat × Value) → Nat → List (String × AuxRow) × Nat
  | .nil, _, c => ([], c)
  | .cons a rest, owners, c =>
    let r1 := flattenA a owners c
    let r2 := flattenF rest owners r1.2
    (r1.1 ++ r2.1, r2.2)
end

/-- Rows destined for the table named `t` (Table Assembler, spec §4.5). -/
def tableRows (t : String) (rows : List (String × AuxRow)) : List AuxRow :=
  (rows.filter (fun r => r.1 = t)).map (fun r => r.2)

/-- The flattened output: the named root table's rows and one named row list
per auxiliary table (spec §4.5). -/
structure Output where
  rootName : String
  rootRows : List RootRow
  aux : List (String × List AuxRow)
deriving DecidableEq

/-- Least strict upper bound of a key list: intermediate keys start here. -/
def keyBound (keys : List Nat) : Nat :=
  keys.foldr (fun k a => max (k + 1) a) 0

/-- Modelled from the spec: the full two-pass engine (§2, §4) with the
surrogate keys of the input records supplied explicitly (§9 allows
pre-reserved key ranges): infer the schema, build the `TablePlan`, then emit
one root row per record and the auxiliary rows of every planned array table,
drawing intermediate keys from a counter above every record key. -/
def relationalizeWith (keys : List Nat) (root sep : String)
    (policy : ArrayRootPolicy) (rs : List Record) : Except PlanError Output :=
  match planOf root sep policy rs with
  | .error e => .error e
  | .ok plan =>
    let rootRows := (keys.zip rs).map (fun kr =>
      RootRow.mk kr.1 (rowFor (.struct kr.2) plan.rootCols))
    let owners := (keys.zip rs).map (fun kr => (kr.1, Value.struct kr.2))
    let all := (flattenF plan.forest owners (keyBound keys)).1
    .ok ⟨root, rootRows,
      (collectT plan.forest).map (fun pn => (pn.2, tableRows pn.2 all))⟩

/-- Modelled from the spec: the engine with its default key generator, a
monotonically increasing counter starting at zero (§3 SurrogateKey). -/
def relationalize (root sep : String) (policy : ArrayRootPolicy)
    (rs : List Record) : Except PlanError Output :=
  relationalizeWith (List.range rs.length) root sep policy rs

/-- The rows of the named auxiliary table of a flatten result; empty when the
run failed or the table is not in the output. -/
def auxRowsOf (res : Except PlanError Output) (t : String) : List AuxRow :=
  match res with
  | .error _ => []
  | .ok out =>
    match out.aux.find? (fun e => e.1 = t) with
    | some e => e.2
    | none => []

/-- The surrogate keys of the root rows of a flatten result. -/
def rootKeysOf (res : Except PlanError Output) : List Nat :=
  match res with
  | .error _ => []
  | .ok out => out.rootRows.map (fun r => r.key)

/-- Modelled from the spec: the table-name enumeration of the reference
relationalize transform (external to the repository; its behaviour is
recorded in the notebook transcript): on a frame whose inferred schema is
empty it returns a single unnamed frame (key `""`), otherwise the planned
root and auxiliary table names. -/
def glueFrameKeys (root : String) (rs : List Record) : List String :=
  if observedPaths rs = [] then [""]
  else root :: (arrayPsOf rs).map (tableName root "_")

/-- Modelled from the spec: the `drop_fields` transform of the external frame
library as used in the transcript: remove every field whose name is listed. -/
def dropFields (names : List String) : Fields → Fields
  | .nil => .nil
  | .cons n v fs =>
    if names.contains n then dropFields names fs
    else .cons n v (dropFields names fs)

/-- Modelled from the spec: the `rename_field` transform of the external
frame library as used in the transcript: rename matching fields, keeping
their values. -/
def renameField (old new : String) : Fields → Fields
  | .nil => .nil
  | .cons n v fs =>
    .cons (if n = old then new else n) v (renameField old new fs)

/-- The transcript's field pipeline: drop `other_names` and `identifiers`,
then rename `id` to `org_id` and `name` to `org_name`. -/
def orgsPipe (r : Fields) : Fields :=
  renameField "name" "org_name"
    (renameField "id" "org_id" (dropFields ["other_names", "identifiers"] r))

/-- List of the field names of a record, in order. -/
def namesOfFields : Fields → List String
  | .nil => []
  | .cons n _ fs => n :: namesOfFields fs

/-- List of the field values of a record, in order. -/
def valuesOfFields : Fields → List Value
  | .nil => []
  | .cons _ v fs => v :: valuesOfFields fs

/-- The composite renaming of the transcript pipeline. -/
def orgsRen (n : String) : String :=
  if n = "id" then "org_id" else if n = "name" then "org_name" else n

/-- Apply a name renaming to every field, keeping values. -/
def mapNames (f : String → String) : Fields → Fields
  | .nil => .nil
  | .cons n v fs => .cons (f n) v (mapNames f fs)

/-- The planning error of a plan result, if any. -/
def planErrOf (res : Except PlanError TablePlan) : Option PlanError :=
  match res with
  | .error e => some e
  | .ok _ => none

/-- The output of a flatten result, if it succeeded. -/
def outputOf (res : Except PlanError Output) : Option Output :=
  match res with
  | .error _ => none
  | .ok out => some out

/-- Consecutive naturals `s, s+1, …` of length `n` (used to reason about the
intermediate-key allocator). -/
def natSeq (s : Nat) : Nat → List Nat
  | 0 => []
  | n + 1 => s :: natSeq (s + 1) n

/-- First record of the spec's concrete scenario (§8): id `"10"` with two
contact details. -/
def rec10 : Record := fieldsOf [("id", .scalar .string "10"),
  ("contact_details", .arr (elemsOf [
    .struct (fieldsOf [("type", .scalar .string "fax"),
                       ("value", .scalar .string "202-228-3027")]),
    .struct (fieldsOf [("type", .scalar .string "phone"),
                       ("value", .scalar .string "202-224-6542")])]))]

/-- Second record of the spec's concrete scenario (§8): id `"75"` with one
contact detail. -/
def rec75 : Record := fieldsOf [("id", .scalar .string "75"),
  ("contact_details", .arr (elemsOf [
    .struct (fieldsOf [("type", .scalar .string "fax"),
                       ("value", .scalar .string "202-224-6747")])]))]

/-- A record with an array nested inside a struct inside an array, probing
the transitive foreign-key chain (spec §4.3). -/
def recNested : Record := fieldsOf [("a", .arr (elemsOf [
  .struct (fieldsOf [("b", .arr (elemsOf [.scalar .integer "1"])),
                     ("c", .scalar .string "x")])]))]

/-- A record whose array paths `a.b` and `a_b` collide after joining with the
separator `"_"`. -/
def recColl : Record := fieldsOf [
  ("a", .arr (elemsOf [.struct (fieldsOf [("b", .arr (elemsOf [.scalar .integer "1"]))])])),
  ("a_b", .arr (elemsOf [.scalar .integer "2"]))]

/-- A record with a string at field `f` (widening scenario, spec §8). -/
def recStr : Record := fieldsOf [("f", .scalar .string "hello")]

/-- A record with an integer at field `f` (widening scenario, spec §8). -/
def recInt : Record := fieldsOf [("f", .scalar .integer "42")]

/-- A path `p` is a top-level array path of the collection: an observed array
path that no other array path leads. -/
def TopLevelArr (rs : List Record) (p : Path) : Prop :=
  p ∈ arrayPsOf rs ∧ ∀ b ∈ arrayPsOf rs, pathLe b p = true → b = p

/-- The absolute paths of all planned columns of a table plan: the root
columns and, for every auxiliary node, its columns prefixed by the node's
array path. -/
def planColsAbs (plan : TablePlan) : List Path :=
  plan.rootCols.map ColSpec.crel ++
    (nodesT plan.forest).flatMap (fun nd => nd.2.2.2.map (fun c => nd.1 ++ c.crel))

/-- The table plan the planner computes for the spec's two-record scenario. -/
def scenarioPlan : TablePlan :=
  ⟨"hist_root", plannedRootCols [rec10, rec75] .count,
    forestOfList (buildKidsL "hist_root" "_" (inferSchema [rec10, rec75])
      (inferElemTop [rec10, rec75]) (scalarish [rec10, rec75])
      (arrayPsOf [rec10, rec75]) .count
      (maxPathLen (arrayPsOf [rec10, rec75]) + 1) [])⟩

/-- The output of flattening the two scenario records with the default key
generator (surrogate keys `0` and `1`). -/
def scenarioOutDefault : Output :=
  ⟨"hist_root",
    [⟨0, [("id", .clit .string "10"), ("contact_details", .cint 2)]⟩,
     ⟨1, [("id", .clit .string "75"), ("contact_details", .cint 1)]⟩],
    [("hist_root_contact_details",
      [⟨0, 0, [("type", .clit .string "fax"), ("value", .clit .string "202-228-3027")]⟩,
       ⟨0, 1, [("type", .clit .string "phone"), ("value", .clit .string "202-224-6542")]⟩,
       ⟨1, 0, [("type", .clit .string "fax"), ("value", .clit .string "202-224-6747")]⟩])]⟩

theorem widenK_comm : ∀ a b, widenK a b = widenK b a := by decide

theorem widenK_assoc : ∀ a b c, widenK (widenK a b) c = widenK a (widenK b c) := by
  decide

theorem joinShape_comm : ∀ s t, joinShape s t = joinShape t s := by decide

theorem joinShape_assoc :
    ∀ s t u, joinShape (joinShape s t) u = joinShape s (joinShape t u) := by decide

theorem joinShape_absent_left : ∀ s, joinShape .absent s = s := by decide

theorem joinShape_absent_right : ∀ s, joinShape s .absent = s := by decide

theorem inferSchema_append (A B : List Record) :
    inferSchema (A ++ B) = mergeSchema (inferSchema A) (inferSchema B) := by
  funext p
  show (A ++ B).foldr _ _ = joinShape (A.foldr _ _) (B.foldr _ _)
  induction A with
  | nil => simp [joinShape_absent_left]
  | cons r rest ih =>
      simp only [List.cons_append, List.foldr_cons, ih, joinShape_assoc]

theorem mergeSchema_comm (s t : Schema) : mergeSchema s t = mergeSchema t s := by
  funext p; exact joinShape_comm _ _

theorem mergeSchema_assoc (s t u : Schema) :
    mergeSchema (mergeSchema s t) u = mergeSchema s (mergeSchema t u) := by
  funext p; exact joinShape_assoc _ _ _

/-- Claim C7: merging partial schemas with the pairwise widening rule is
associative and commutative, so the partial schemas of any partition
`[A, B, C]` of the record collection can be merged in any order and always
yield the schema inferred over the whole collection, with the same field
paths and the same widened kinds. -/
theorem c7_schema_merge_assoc_comm :
    (∀ s t u : Schema, mergeSchema (mergeSchema s t) u = mergeSchema s (mergeSchema t u))
    ∧ (∀ s t : Schema, mergeSchema s t = mergeSchema t s)
    ∧ (∀ A B : List Record,
        inferSchema (A ++ B) = mergeSchema (inferSchema A) (inferSchema B))
    ∧ (∀ A B C : List Record,
        mergeSchema (mergeSchema (inferSchema A) (inferSchema B)) (inferSchema C)
          = inferSchema (A ++ B ++ C)
        ∧ mergeSchema (inferSchema A) (mergeSchema (inferSchema B) (inferSchema C))
          = inferSchema (A ++ B ++ C)
        ∧ mergeSchema (mergeSchema (inferSchema C) (inferSchema A)) (inferSchema B)
          = inferSchema (A ++ B ++ C)) := by
  refine ⟨mergeSchema_assoc, mergeSchema_comm, inferSchema_append, ?_⟩
  intro A B C
  have h : mergeSchema (mergeSchema (inferSchema A) (inferSchema B)) (inferSchema C)
      = inferSchema (A ++ B ++ C) := by
    rw [inferSchema_append (A ++ B) C, inferSchema_append A B]
  refine ⟨h, ?_, ?_⟩
  · rw [← mergeSchema_assoc]; exact h
  · rw [mergeSchema_comm (inferSchema C) (inferSchema A), mergeSchema_assoc,
      mergeSchema_comm (inferSchema C) (inferSchema B), ← mergeSchema_assoc]
    exact h

theorem widenK_incompatible (k1 k2 : SKind)
    (h : k1 ≠ k2 ∧ ¬((k1 = .integer ∧ k2 = .float) ∨ (k1 = .float ∧ k2 = .integer))) :
    widenK k1 k2 = .string := by
  revert h; revert k1 k2; decide

/-- Claim C8: scalar-kind widening behaves as specified: integer with float
widens to float, any two incompatible kinds widen to string, `Null` together
with a typed kind keeps the typed kind; and a field that is a string in one
record and an integer in another yields a root column of kind string with
both original values preserved as text. -/
theorem c8_scalar_widening (k1 k2 : SKind)
    (h : k1 ≠ k2 ∧ ¬((k1 = .integer ∧ k2 = .float) ∨ (k1 = .float ∧ k2 = .integer))) :
    widenK k1 k2 = .string
    ∧ widenK .integer .float = .float
    ∧ widenK .float .integer = .float
    ∧ (∀ k, joinShape .absent (.scalarS k) = .scalarS k
        ∧ joinShape (.scalarS k) .absent = .scalarS k)
    ∧ inferSchema [recStr, recInt] ["f"] = .scalarS .string
    ∧ outputOf (relationalize "t" "_" .count [recStr, recInt]) = some ⟨"t",
        [⟨0, [("f", .clit .string "hello")]⟩, ⟨1, [("f", .clit .string "42")]⟩], []⟩ := by
  refine ⟨widenK_incompatible k1 k2 h, by decide, by decide, by decide, by decide, by decide⟩

theorem c8_scalar_widening_witness :
    widenK .string .integer = .string
    ∧ widenK .integer .float = .float
    ∧ widenK .float .integer = .float
    ∧ (∀ k, joinShape .absent (.scalarS k) = .scalarS k
        ∧ joinShape (.scalarS k) .absent = .scalarS k)
    ∧ inferSchema [recStr, recInt] ["f"] = .scalarS .string
    ∧ outputOf (relationalize "t" "_" .count [recStr, recInt]) = some ⟨"t",
        [⟨0, [("f", .clit .string "hello")]⟩, ⟨1, [("f", .clit .string "42")]⟩], []⟩ :=
  c8_scalar_widening .string .integer (by decide)

/-- Claim C1 counterexample: flattening the two scenario records with the
engine's default key generator assigns the surrogate keys `0` and `1`, so the
auxiliary table's `(id, index)` pairs are `(0,0), (0,1), (1,0)` and no row
carries `id = 10` or `id = 75` as the claim states. -/
theorem c1_default_keys_counterexample :
    ((auxRowsOf (relationalize "hist_root" "_" .count [rec10, rec75])
        "hist_root_contact_details").map (fun r => (r.id, r.index)))
      = [(0, 0), (0, 1), (1, 0)]
    ∧ 10 ∉ ((auxRowsOf (relationalize "hist_root" "_" .count [rec10, rec75])
        "hist_root_contact_details").map (fun r => r.id))
    ∧ 75 ∉ ((auxRowsOf (relationalize "hist_root" "_" .count [rec10, rec75])
        "hist_root_contact_details").map (fun r => r.id)) := by
  refine ⟨by decide, by decide, by decide⟩

/-- Claim C1 (amended): the auxiliary rows carry the surrogate keys assigned
to the records, not their source `id` strings; when the two scenario records
are flattened with surrogate keys `10` and `75` under the `count` policy and
root name `hist_root`, the output is exactly the claimed tables: one root row
per record with `contact_details` counts `2` and `1`, and the auxiliary table
`hist_root_contact_details` with exactly the three claimed rows. -/
theorem c1_scenario_amended :
    outputOf (relationalizeWith [10, 75] "hist_root" "_" .count [rec10, rec75])
      = some ⟨"hist_root",
        [⟨10, [("id", .clit .string "10"), ("contact_details", .cint 2)]⟩,
         ⟨75, [("id", .clit .string "75"), ("contact_details", .cint 1)]⟩],
        [("hist_root_contact_details",
          [⟨10, 0, [("type", .clit .string "fax"), ("value", .clit .string "202-228-3027")]⟩,
           ⟨10, 1, [("type", .clit .string "phone"), ("value", .clit .string "202-224-6542")]⟩,
           ⟨75, 0, [("type", .clit .string "fax"), ("value", .clit .string "202-224-6747")]⟩])]⟩ := by
  decide

/-- Claim C9: relationalizing an empty record collection (zero records, empty
inferred schema) does not fail: the reference transform's table-name
enumeration is exactly the singleton containing the empty string, not zero
tables and not the planned root table name. -/
theorem c9_empty_relationalize_keys :
    glueFrameKeys "hist_root" ([] : List Record) = [""]
    ∧ observedPaths ([] : List Record) = []
    ∧ glueFrameKeys "hist_root" ([] : List Record) ≠ []
    ∧ "hist_root" ∉ glueFrameKeys "hist_root" ([] : List Record) := by
  refine ⟨rfl, rfl, by decide, by decide⟩

theorem renamePair :
    ∀ g : Fields,
      renameField "name" "org_name" (renameField "id" "org_id" g) = mapNames orgsRen g
  | .nil => rfl
  | .cons n v fs => by
    have ih := renamePair fs
    simp only [renameField, mapNames, ih]
    congr 1
    by_cases h1 : n = "id"
    · subst h1; decide
    · rw [if_neg h1]
      by_cases h2 : n = "name"
      · subst h2; decide
      · rw [if_neg h2]; simp [orgsRen, h1, h2]

theorem namesOf_mapNames (f : String → String) :
    ∀ g : Fields, namesOfFields (mapNames f g) = (namesOfFields g).map f
  | .nil => rfl
  | .cons n v fs => by simp [mapNames, namesOfFields, namesOf_mapNames f fs]

theorem valuesOf_mapNames (f : String → String) :
    ∀ g : Fields, valuesOfFields (mapNames f g) = valuesOfFields g
  | .nil => rfl
  | .cons n v fs => by simp [mapNames, valuesOfFields, valuesOf_mapNames f fs]

theorem namesOf_dropFields (ds : List String) :
    ∀ g : Fields,
      namesOfFields (dropFields ds g)
        = (namesOfFields g).filter (fun n => !(ds.contains n))
  | .nil => rfl
  | .cons n v fs => by
    have ih := namesOf_dropFields ds fs
    by_cases h : n ∈ ds
    · simp [dropFields, namesOfFields, h, ih]
    · simp [dropFields, namesOfFields, h, ih]

/-- Claim C10: dropping `other_names` and `identifiers` and then renaming
`id` to `org_id` and `name` to `org_name` yields, on every frame, exactly the
original fields minus the two dropped ones with the two renames applied; the
values of the surviving fields are unchanged and every field not named `id`
or `name` keeps its name. -/
theorem c10_drop_rename_fields (f : List Fields) :
    f.map orgsPipe
      = f.map (fun r => mapNames orgsRen (dropFields ["other_names", "identifiers"] r))
    ∧ (∀ r : Fields, namesOfFields (orgsPipe r)
        = ((namesOfFields r).filter
            (fun n => !(["other_names", "identifiers"].contains n))).map orgsRen)
    ∧ (∀ r : Fields, valuesOfFields (orgsPipe r)
        = valuesOfFields (dropFields ["other_names", "identifiers"] r))
    ∧ orgsRen "id" = "org_id" ∧ orgsRen "name" = "org_name"
    ∧ (∀ n : String, ¬n = "id" → ¬n = "name" → orgsRen n = n) := by
  refine ⟨?_, ?_, ?_, by decide, by decide, ?_⟩
  · exact List.map_congr_left (fun r _ => renamePair _)
  · intro r
    rw [orgsPipe, renamePair, namesOf_mapNames, namesOf_dropFields]
  · intro r
    rw [orgsPipe, renamePair, valuesOf_mapNames]
  · intro n h1 h2
    simp [orgsRen, h1, h2]

theorem c10_drop_rename_fields_witness : orgsRen "classification" = "classification" :=
  (c10_drop_rename_fields []).2.2.2.2.2 "classification" (by decide) (by decide)

/-- Claim C6: when the planned root table (or any planned auxiliary table,
whose column list always contains the reserved `id` and `index` columns)
would have zero columns and planning is not aborted earlier by a schema
conflict, the engine raises `EmptySchemaError` to the caller instead of
handing over a column-less table. -/
theorem c6_empty_schema_error (root sep : String) (policy : ArrayRootPolicy)
    (rs : List Record)
    (hc : ∀ p ∈ observedPaths rs, inferSchema rs p ≠ .conflict)
    (hn : firstNameDup root sep (arrayPsOf rs) [] = none)
    (he : plannedRootCols rs policy = []
      ∨ ∃ nd ∈ nodesT (forestOfList (buildKidsL root sep (inferSchema rs)
          (inferElemTop rs) (scalarish rs) (arrayPsOf rs) policy
          (maxPathLen (arrayPsOf rs) + 1) [])),
          ("id" : String) :: "index" :: nd.2.2.2.map ColSpec.cname = []) :
    planOf root sep policy rs = .error (.emptySchema root) := by
  rcases he with he | ⟨nd, _, habs⟩
  · have hfind : (observedPaths rs).find?
        (fun p => inferSchema rs p = Shape.conflict) = none := by
      rw [List.find?_eq_none]
      intro p hp
      simpa using hc p hp
    simp [planOf, hfind, hn, he]
  · exact absurd habs (by simp)

theorem c6_empty_schema_error_witness :
    planOf "hist_root" "_" .count ([] : List Record)
      = .error (.emptySchema "hist_root") := by
  apply c6_empty_schema_error
  · intro p hp
    exact absurd (show p ∈ ([] : List Path) from hp) (List.not_mem_nil p)
  · rfl
  · exact Or.inl rfl

theorem pathLe_refl : ∀ p : Path, pathLe p p = true
  | [] => rfl
  | _ :: p => by simp [pathLe, pathLe_refl p]

theorem pathLe_nil_left (p : Path) : pathLe [] p = true := rfl

theorem pathLe_length : ∀ {p q : Path}, pathLe p q = true → p.length ≤ q.length
  | [], _, _ => Nat.zero_le _
  | _ :: _, [], h => by simp [pathLe] at h
  | a :: p, b :: q, h => by
    by_cases hab : a = b
    · simp only [pathLe, if_pos hab] at h
      simpa using Nat.succ_le_succ (pathLe_length h)
    · simp [pathLe, hab] at h

theorem pathLe_eq_of_length : ∀ {p q : Path},
    pathLe p q = true → q.length ≤ p.length → p = q
  | [], [], _, _ => rfl
  | [], _ :: _, _, hl => by simp at hl
  | _ :: _, [], h, _ => by simp [pathLe] at h
  | a :: p, b :: q, h, hl => by
    by_cases hab : a = b
    · simp only [pathLe, if_pos hab] at h
      simp only [List.length_cons, Nat.succ_le_succ_iff] at hl
      rw [hab, pathLe_eq_of_length h hl]
    · simp [pathLe, hab] at h

theorem pathLe_lt_length {p q : Path} (h : pathLe p q = true) (hne : p ≠ q) :
    p.length < q.length := by
  rcases Nat.lt_or_ge p.length q.length with hlt | hge
  · exact hlt
  · exact absurd (pathLe_eq_of_length h hge) hne

theorem pathLe_trans : ∀ {p q r : Path},
    pathLe p q = true → pathLe q r = true → pathLe p r = true
  | [], _, _, _, _ => rfl
  | _ :: _, [], _, h, _ => by simp [pathLe] at h
  | _ :: _, _ :: _, [], _, h => by simp [pathLe] at h
  | a :: p, b :: q, c :: r, h1, h2 => by
    by_cases hab : a = b
    · by_cases hbc : b = c
      · simp only [pathLe, if_pos hab] at h1
        simp only [pathLe, if_pos hbc] at h2
        simp [pathLe, hab.trans hbc, pathLe_trans h1 h2]
      · simp [pathLe, hbc] at h2
    · simp [pathLe, hab] at h1

theorem pathLe_append_drop : ∀ {p q : Path},
    pathLe p q = true → p ++ q.drop p.length = q
  | [], _, _ => by simp
  | _ :: _, [], h => by simp [pathLe] at h
  | a :: p, b :: q, h => by
    by_cases hab : a = b
    · simp only [pathLe, if_pos hab] at h
      simp [hab, pathLe_append_drop h]
    · simp [pathLe, hab] at h

theorem pathLe_of_common : ∀ {p a b : Path},
    pathLe a p = true → pathLe b p = true → pathLe a b = true ∨ pathLe b a = true
  | _, [], _, _, _ => Or.inl rfl
  | _, _, [], _, _ => Or.inr rfl
  | [], _ :: _, _, h, _ => by simp [pathLe] at h
  | x :: p, a :: as, b :: bs, h1, h2 => by
    by_cases hax : a = x
    · by_cases hbx : b = x
      · simp only [pathLe, if_pos hax] at h1
        simp only [pathLe, if_pos hbx] at h2
        have := pathLe_of_common h1 h2
        rcases this with h | h
        · exact Or.inl (by simp [pathLe, hax.trans hbx.symm, h])
        · exact Or.inr (by simp [pathLe, hbx.trans hax.symm, h])
      · simp [pathLe, hbx] at h2
    · simp [pathLe, hax] at h1

theorem natSeq_append : ∀ (n m s : Nat), natSeq s (n + m) = natSeq s n ++ natSeq (s + n) m
  | 0, m, s => by simp [natSeq]
  | n + 1, m, s => by
    have ih := natSeq_append n m (s + 1)
    rw [show (n + 1) + m = (n + m) + 1 from by omega,
        show s + (n + 1) = (s + 1) + n from by omega]
    show s :: natSeq (s + 1) (n + m) = (s :: natSeq (s + 1) n) ++ natSeq ((s + 1) + n) m
    rw [List.cons_append, ih]

theorem mem_natSeq : ∀ {n s x : Nat}, x ∈ natSeq s n ↔ s ≤ x ∧ x < s + n
  | 0, s, x => by simp [natSeq]
  | n + 1, s, x => by
    simp only [natSeq, List.mem_cons, mem_natSeq]
    omega

theorem natSeq_nodup : ∀ (n s : Nat), (natSeq s n).Nodup
  | 0, _ => List.nodup_nil
  | n + 1, s => by
    simp only [natSeq, List.nodup_cons]
    exact ⟨fun h => by have := mem_natSeq.mp h; omega, natSeq_nodup n (s + 1)⟩

theorem natSeq_length : ∀ (n s : Nat), (natSeq s n).length = n
  | 0, _ => rfl
  | n + 1, s => by simp [natSeq, natSeq_length n (s + 1)]

theorem exists_minLen : ∀ (l : List Path), l ≠ [] → ∃ c, c ∈ l ∧ ∀ b ∈ l, c.length ≤ b.length
  | [], h => absurd rfl h
  | [a], _ => ⟨a, List.mem_singleton_self a, by simp⟩
  | a :: x :: xs, _ => by
    obtain ⟨c, hc, hmin⟩ := exists_minLen (x :: xs) (by simp)
    rcases Nat.le_total a.length c.length with hle | hle
    · exact ⟨a, List.mem_cons_self a _, by
        intro b hb
        rcases List.mem_cons.mp hb with rfl | hb
        · exact Nat.le_refl _
        · exact Nat.le_trans hle (hmin b hb)⟩
    · exact ⟨c, List.mem_cons_of_mem a hc, by
        intro b hb
        rcases List.mem_cons.mp hb with rfl | hb
        · exact hle
        · exact hmin b hb⟩

theorem exists_maxLen : ∀ (l : List Path), l ≠ [] → ∃ c, c ∈ l ∧ ∀ b ∈ l, b.length ≤ c.length
  | [], h => absurd rfl h
  | [a], _ => ⟨a, List.mem_singleton_self a, by simp⟩
  | a :: x :: xs, _ => by
    obtain ⟨c, hc, hmax⟩ := exists_maxLen (x :: xs) (by simp)
    rcases Nat.le_total a.length c.length with hle | hle
    · exact ⟨c, List.mem_cons_of_mem a hc, by
        intro b hb
        rcases List.mem_cons.mp hb with rfl | hb
        · exact hle
        · exact hmax b hb⟩
    · exact ⟨a, List.mem_cons_self a _, by
        intro b hb
        rcases List.mem_cons.mp hb with rfl | hb
        · exact Nat.le_refl _
        · exact Nat.le_trans (hmax b hb) hle⟩

theorem nodup_map_of_subset {α β : Type} {l1 l2 : List α} (f : α → β)
    (h1 : l1.Nodup) (hsub : l1 ⊆ l2) (h2 : (l2.map f).Nodup) : (l1.map f).Nodup := by
  obtain ⟨l, hperm, hsl⟩ := List.subperm_of_subset h1 hsub
  exact (hperm.map f).nodup ((hsl.map f).nodup h2)

theorem tagFrom_map_fst : ∀ (vs : List Value) (c : Nat),
    (tagFrom c vs).map Prod.fst = natSeq c vs.length
  | [], _ => rfl
  | v :: vs, c => by simp [tagFrom, natSeq, tagFrom_map_fst vs (c + 1)]

theorem allocElems_spec (rel : Path) : ∀ (owners : List (Nat × Value)) (c : Nat),
    ∃ m, ((allocElems rel c owners).1).map Prod.fst = natSeq c m
      ∧ (allocElems rel c owners).2 = c + m
  | [], c => ⟨0, rfl, rfl⟩
  | kv :: rest, c => by
    obtain ⟨m, hmap, hc⟩ :=
      allocElems_spec rel rest (c + (elemsList' (valueAt kv.2 rel)).length)
    refine ⟨(elemsList' (valueAt kv.2 rel)).length + m, ?_, ?_⟩
    · simp only [allocElems, List.map_append, hmap, tagFrom_map_fst, natSeq_append]
    · simp only [allocElems, hc]
      omega

theorem allocElems_fst_nodup (rel : Path) (owners : List (Nat × Value)) (c : Nat) :
    (((allocElems rel c owners).1).map Prod.fst).Nodup := by
  obtain ⟨m, hmap, _⟩ := allocElems_spec rel owners c
  rw [hmap]
  exact natSeq_nodup m c

theorem idxRows_pairs (k : Nat) (cols : List ColSpec) :
    ∀ (es : List Value) (i : Nat),
      (idxRows k cols i es).map (fun r => (r.id, r.index))
        = (natSeq i es.length).map (fun j => (k, j))
  | [], _ => rfl
  | e :: es, i => by simp [idxRows, natSeq, idxRows_pairs k cols es (i + 1)]

theorem idxRows_id (k : Nat) (cols : List ColSpec) :
    ∀ (es : List Value) (i : Nat) (r : AuxRow), r ∈ idxRows k cols i es → r.id = k
  | [], _, _, h => absurd h (List.not_mem_nil _)
  | e :: es, i, r, h => by
    rcases List.mem_cons.mp h with rfl | h
    · rfl
    · exact idxRows_id k cols es (i + 1) r h

theorem idxRows_length (k : Nat) (cols : List ColSpec) :
    ∀ (es : List Value) (i : Nat), (idxRows k cols i es).length = es.length
  | [], _ => rfl
  | e :: es, i => by simp [idxRows, idxRows_length k cols es (i + 1)]

theorem ownRows_id {rel : Path} {cols : List ColSpec} {owners : List (Nat × Value)}
    {r : AuxRow} (h : r ∈ ownRows rel cols owners) : r.id ∈ owners.map Prod.fst := by
  obtain ⟨kv, hkv, hr⟩ := List.mem_flatMap.mp h
  rw [idxRows_id kv.1 cols _ 0 r hr]
  exact List.mem_map_of_mem Prod.fst hkv

theorem ownRows_cons (rel : Path) (cols : List ColSpec) (kv : Nat × Value)
    (rest : List (Nat × Value)) :
    ownRows rel cols (kv :: rest)
      = idxRows kv.1 cols 0 (elemsList' (valueAt kv.2 rel)) ++ ownRows rel cols rest := by
  simp [ownRows]

theorem ownRows_pairs_nodup (rel : Path) (cols : List ColSpec) :
    ∀ (owners : List (Nat × Value)), (owners.map Prod.fst).Nodup →
      ((ownRows rel cols owners).map (fun r => (r.id, r.index))).Nodup
  | [], _ => List.nodup_nil
  | kv :: rest, h => by
    simp only [List.map_cons, List.nodup_cons] at h
    have hrest := ownRows_pairs_nodup rel cols rest h.2
    rw [ownRows_cons, List.map_append, List.nodup_append]
    refine ⟨?_, hrest, ?_⟩
    · rw [idxRows_pairs]
      refine (natSeq_nodup _ _).map ?_
      intro a b hab
      simpa using hab
    · intro x hx1 hx2
      rw [idxRows_pairs] at hx1
      obtain ⟨j, _, rfl⟩ := List.mem_map.mp hx1
      obtain ⟨r, hr, hrx⟩ := List.mem_map.mp hx2
      have hid : r.id = kv.1 := congrArg Prod.fst hrx
      have hmem : r.id ∈ rest.map Prod.fst := ownRows_id hr
      rw [hid] at hmem
      exact h.1 hmem

theorem ownRows_filter_of_not_mem (rel : Path) (cols : List ColSpec) {k : Nat} :
    ∀ {owners : List (Nat × Value)}, k ∉ owners.map Prod.fst →
      (ownRows rel cols owners).filter (fun r => r.id = k) = []
  | [], _ => rfl
  | kv :: rest, h => by
    simp only [List.map_cons, List.mem_cons, not_or] at h
    rw [ownRows_cons, List.filter_append,
      ownRows_filter_of_not_mem rel cols h.2, List.append_nil]
    rw [List.filter_eq_nil_iff]
    intro r hr
    have hid := idxRows_id kv.1 cols _ 0 r hr
    have hne : ¬kv.1 = k := fun hh => h.1 hh.symm
    simp [hid, hne]

theorem ownRows_filter_length (rel : Path) (cols : List ColSpec) {k : Nat} {v : Value} :
    ∀ {owners : List (Nat × Value)}, (owners.map Prod.fst).Nodup →
      (k, v) ∈ owners →
      ((ownRows rel cols owners).filter (fun r => r.id = k)).length
        = (elemsList' (valueAt v rel)).length
  | [], _, hmem => absurd hmem (List.not_mem_nil _)
  | kv :: rest, hnd, hmem => by
    simp only [List.map_cons, List.nodup_cons] at hnd
    rcases List.mem_cons.mp hmem with heq | hmem
    · have hk : kv.1 = k := (congrArg Prod.fst heq).symm
      have hv : kv.2 = v := (congrArg Prod.snd heq).symm
      have h1 : (idxRows kv.1 cols 0 (elemsList' (valueAt kv.2 rel))).filter
          (fun r => r.id = k) = idxRows kv.1 cols 0 (elemsList' (valueAt kv.2 rel)) := by
        rw [List.filter_eq_self]
        intro r hr
        simp [idxRows_id kv.1 cols _ 0 r hr, hk]
      have h2 : (ownRows rel cols rest).filter (fun r => r.id = k) = [] :=
        ownRows_filter_of_not_mem rel cols (hk ▸ hnd.1)
      rw [ownRows_cons, List.filter_append, h1, h2, List.append_nil,
        idxRows_length, hv]
    · have hkv : ¬kv.1 = k := by
        intro hk
        exact hnd.1 (by rw [hk]; exact List.mem_map_of_mem Prod.fst hmem)
      have h1 : (idxRows kv.1 cols 0 (elemsList' (valueAt kv.2 rel))).filter
          (fun r => r.id = k) = [] := by
        rw [List.filter_eq_nil_iff]
        intro r hr
        simp [idxRows_id kv.1 cols _ 0 r hr, hkv]
      rw [ownRows_cons, List.filter_append, h1, List.nil_append]
      exact ownRows_filter_length rel cols hnd.2 hmem

theorem tableRows_append (t : String) (a b : List (String × AuxRow)) :
    tableRows t (a ++ b) = tableRows t a ++ tableRows t b := by
  simp [tableRows, List.filter_append]

theorem tableRows_tag_eq (t : String) (l : List AuxRow) :
    tableRows t (l.map (fun r => (t, r))) = l := by
  induction l with
  | nil => rfl
  | cons r rest ih => simpa [tableRows, List.filter] using ih

theorem tableRows_tag_ne {t u : String} (hne : u ≠ t) (l : List AuxRow) :
    tableRows t (l.map (fun r => (u, r))) = [] := by
  induction l with
  | nil => rfl
  | cons r rest ih => simp [tableRows, List.filter, hne] at ih ⊢

theorem tableRows_eq_nil {t : String} {rows : List (String × AuxRow)}
    (h : ∀ x ∈ rows, x.1 ≠ t) : tableRows t rows = [] := by
  simp only [tableRows]
  rw [List.filter_eq_nil_iff.mpr, List.map_nil]
  intro x hx
  simp [h x hx]

mutual
theorem flattenA_names : ∀ (ap : AuxPlan) (owners : List (Nat × Value)) (c : Nat),
    ∀ x ∈ (flattenA ap owners c).1, x.1 ∈ (collectA ap).map Prod.snd
  | .node ab rl nm cols kids, owners, c, x, hx => by
    simp only [flattenA] at hx
    rcases List.mem_append.mp hx with hx | hx
    · obtain ⟨r, _, rfl⟩ := List.mem_map.mp hx
      simp [collectA]
    · have := flattenF_names kids _ _ x hx
      simp only [collectA, List.map_cons]
      exact List.mem_cons_of_mem _ this

theorem flattenF_names : ∀ (F : AuxForest) (owners : List (Nat × Value)) (c : Nat),
    ∀ x ∈ (flattenF F owners c).1, x.1 ∈ (collectT F).map Prod.snd
  | .nil, _, _, x, hx => absurd hx (List.not_mem_nil x)
  | .cons a rest, owners, c, x, hx => by
    simp only [flattenF] at hx
    rcases List.mem_append.mp hx with hx | hx
    · have := flattenA_names a owners c x hx
      simp only [collectT, List.map_append]
      exact List.mem_append_left _ this
    · have := flattenF_names rest owners _ x hx
      simp only [collectT, List.map_append]
      exact List.mem_append_right _ this
end

theorem member_collect_name :
    ∀ (l : List AuxPlan) (ab rl : Path) (nm : String) (cols : List ColSpec)
      (kids : AuxForest), AuxPlan.node ab rl nm cols kids ∈ l →
      nm ∈ (collectT (forestOfList l)).map Prod.snd
  | [], _, _, _, _, _, h => absurd h (List.not_mem_nil _)
  | a :: rest, ab, rl, nm, cols, kids, h => by
    simp only [forestOfList, collectT, List.map_append]
    rcases List.mem_cons.mp h with rfl | h
    · exact List.mem_append_left _ (by simp [collectA])
    · exact List.mem_append_right _ (member_collect_name rest ab rl nm cols kids h)

theorem flattenF_at_member :
    ∀ (l : List AuxPlan) (owners : List (Nat × Value)) (c : Nat)
      {ab rl : Path} {nm : String} {cols : List ColSpec} {kids : AuxForest},
      AuxPlan.node ab rl nm cols kids ∈ l →
      ((collectT (forestOfList l)).map Prod.snd).Nodup →
      tableRows nm (flattenF (forestOfList l) owners c).1 = ownRows rl cols owners
  | [], _, _, _, _, _, _, _, h, _ => absurd h (List.not_mem_nil _)
  | a :: rest, owners, c, ab, rl, nm, cols, kids, hmem, hnd => by
    simp only [forestOfList, collectT, List.map_append] at hnd ⊢
    rw [List.nodup_append] at hnd
    obtain ⟨nd1, nd2, disj⟩ := hnd
    simp only [flattenF]
    rw [tableRows_append]
    rcases List.mem_cons.mp hmem with rfl | hmem
    · simp only [collectA, List.map_cons, List.nodup_cons] at nd1
      have hkid : tableRows nm
          (flattenF kids (allocElems rl c owners).1 (allocElems rl c owners).2).1 = [] :=
        tableRows_eq_nil (fun x hx hxe => nd1.1 (hxe ▸ flattenF_names kids _ _ x hx))
      have hrest : ∀ c' : Nat, tableRows nm (flattenF (forestOfList rest) owners c').1
          = [] := by
        intro c'
        refine tableRows_eq_nil (fun x hx hxe => ?_)
        have hx2 := flattenF_names (forestOfList rest) owners _ x hx
        have hnmem : nm ∈ (collectA (AuxPlan.node ab rl nm cols kids)).map Prod.snd := by
          simp [collectA]
        exact disj hnmem (hxe ▸ hx2)
      simp only [flattenA]
      rw [tableRows_append, tableRows_tag_eq, hkid, hrest _, List.append_nil,
        List.append_nil]
    · have h1 : tableRows nm (flattenA a owners c).1 = [] := by
        refine tableRows_eq_nil (fun x hx hxe => ?_)
        have hx1 := flattenA_names a owners c x hx
        have hnm := member_collect_name rest ab rl nm cols kids hmem
        exact disj (hxe ▸ hx1) hnm
      rw [h1, List.nil_append]
      exact flattenF_at_member rest owners _ hmem nd2

mutual
theorem flattenA_pairs_nodup :
    ∀ (ap : AuxPlan) (owners : List (Nat × Value)) (c : Nat) (t : String),
      ((collectA ap).map Prod.snd).Nodup → (owners.map Prod.fst).Nodup →
      ((tableRows t (flattenA ap owners c).1).map (fun r => (r.id, r.index))).Nodup
  | .node ab rl nm cols kids, owners, c, t, hnd, hown => by
    simp only [collectA, List.map_cons, List.nodup_cons] at hnd
    simp only [flattenA]
    rw [tableRows_append]
    by_cases ht : nm = t
    · subst ht
      have hkid : tableRows nm
          (flattenF kids (allocElems rl c owners).1 (allocElems rl c owners).2).1 = [] :=
        tableRows_eq_nil (fun x hx hxe => hnd.1 (hxe ▸ flattenF_names kids _ _ x hx))
      rw [tableRows_tag_eq, hkid, List.append_nil]
      exact ownRows_pairs_nodup rl cols owners hown
    · rw [tableRows_tag_ne ht, List.nil_append]
      exact flattenF_pairs_nodup kids _ _ t hnd.2 (allocElems_fst_nodup rl owners c)

theorem flattenF_pairs_nodup :
    ∀ (F : AuxForest) (owners : List (Nat × Value)) (c : Nat) (t : String),
      ((collectT F).map Prod.snd).Nodup → (owners.map Prod.fst).Nodup →
      ((tableRows t (flattenF F owners c).1).map (fun r => (r.id, r.index))).Nodup
  | .nil, _, _, _, _, _ => by simp [flattenF, tableRows]
  | .cons a rest, owners, c, t, hnd, hown => by
    simp only [collectT, List.map_append] at hnd
    rw [List.nodup_append] at hnd
    obtain ⟨nd1, nd2, disj⟩ := hnd
    simp only [flattenF]
    rw [tableRows_append]
    by_cases ht : t ∈ (collectA a).map Prod.snd
    · have h2 : tableRows t (flattenF rest owners (flattenA a owners c).2).1 = [] := by
        refine tableRows_eq_nil (fun x hx hxe => ?_)
        exact disj ht (hxe ▸ flattenF_names rest owners _ x hx)
      rw [h2, List.append_nil]
      exact flattenA_pairs_nodup a owners c t nd1 hown
    · have h1 : tableRows t (flattenA a owners c).1 = [] := by
        refine tableRows_eq_nil (fun x hx hxe => ?_)
        exact ht (hxe ▸ flattenA_names a owners c x hx)
      rw [h1, List.nil_append]
      exact flattenF_pairs_nodup rest owners _ t nd2 hown
end

theorem dedupSeenAux_nodup : ∀ (ps seen : List Path),
    (dedupSeenAux ps seen).Nodup ∧ ∀ x ∈ dedupSeenAux ps seen, x ∉ seen
  | [], _ => ⟨List.nodup_nil, by simp [dedupSeenAux]⟩
  | p :: ps, seen => by
    by_cases h : p ∈ seen
    · simp only [dedupSeenAux, if_pos h]
      exact dedupSeenAux_nodup ps seen
    · simp only [dedupSeenAux, if_neg h]
      obtain ⟨hn, hs⟩ := dedupSeenAux_nodup ps (p :: seen)
      refine ⟨?_, ?_⟩
      · rw [List.nodup_cons]
        exact ⟨fun hc => (hs p hc) (List.mem_cons_self p seen), hn⟩
      · intro x hx
        rcases List.mem_cons.mp hx with rfl | hx
        · exact h
        · exact fun hxs => hs x hx (List.mem_cons_of_mem p hxs)

theorem dedupFirst_nodup (ps : List Path) : (dedupFirst ps).Nodup :=
  (dedupSeenAux_nodup ps []).1

theorem dedupSeenAux_subset : ∀ (ps seen : List Path), ∀ x ∈ dedupSeenAux ps seen, x ∈ ps
  | [], _, x, hx => absurd hx (List.not_mem_nil x)
  | p :: ps, seen, x, hx => by
    by_cases h : p ∈ seen
    · simp only [dedupSeenAux, if_pos h] at hx
      exact List.mem_cons_of_mem p (dedupSeenAux_subset ps seen x hx)
    · simp only [dedupSeenAux, if_neg h] at hx
      rcases List.mem_cons.mp hx with rfl | hx
      · exact List.mem_cons_self x ps
      · exact List.mem_cons_of_mem p (dedupSeenAux_subset ps (p :: seen) x hx)

theorem mem_dedupSeenAux : ∀ (ps seen : List Path) (x : Path),
    x ∈ ps → x ∉ seen → x ∈ dedupSeenAux ps seen
  | [], _, x, hx, _ => absurd hx (List.not_mem_nil x)
  | p :: ps, seen, x, hx, hs => by
    by_cases h : p ∈ seen
    · simp only [dedupSeenAux, if_pos h]
      rcases List.mem_cons.mp hx with rfl | hx
      · exact absurd h hs
      · exact mem_dedupSeenAux ps seen x hx hs
    · simp only [dedupSeenAux, if_neg h]
      rcases List.mem_cons.mp hx with rfl | hx
      · exact List.mem_cons_self x _
      · by_cases hxp : x = p
        · subst hxp; exact List.mem_cons_self x _
        · exact List.mem_cons_of_mem p (mem_dedupSeenAux ps (p :: seen) x hx
            (by simp [hs, hxp]))

theorem mem_dedupFirst {ps : List Path} {x : Path} : x ∈ dedupFirst ps ↔ x ∈ ps :=
  ⟨dedupSeenAux_subset ps [] x, fun hx => mem_dedupSeenAux ps [] x hx (by simp)⟩

theorem firstNameDup_none (root sep : String) : ∀ (ps : List Path) (seen : List String),
    firstNameDup root sep ps seen = none →
    ((ps.map (tableName root sep)).Nodup ∧ ∀ p ∈ ps, tableName root sep p ∉ seen)
  | [], _, _ => ⟨List.nodup_nil, by simp⟩
  | p :: ps, seen, h => by
    by_cases hm : tableName root sep p ∈ seen
    · simp [firstNameDup, hm] at h
    · simp only [firstNameDup] at h
      rw [if_neg (by simpa using hm)] at h
      obtain ⟨hn, hs⟩ := firstNameDup_none root sep ps (tableName root sep p :: seen) h
      refine ⟨?_, ?_⟩
      · rw [List.map_cons, List.nodup_cons]
        refine ⟨fun hmem => ?_, hn⟩
        obtain ⟨q, hq, hqe⟩ := List.mem_map.mp hmem
        exact (hs q hq) (hqe ▸ List.mem_cons_self _ _)
      · intro q hq
        rcases List.mem_cons.mp hq with rfl | hq
        · exact hm
        · exact fun hx => hs q hq (List.mem_cons_of_mem _ hx)

theorem planOf_ok {root sep : String} {policy : ArrayRootPolicy} {rs : List Record}
    {plan : TablePlan} (h : planOf root sep policy rs = .ok plan) :
    plan = ⟨root, plannedRootCols rs policy,
        forestOfList (buildKidsL root sep (inferSchema rs) (inferElemTop rs)
          (scalarish rs) (arrayPsOf rs) policy (maxPathLen (arrayPsOf rs) + 1) [])⟩
    ∧ firstNameDup root sep (arrayPsOf rs) [] = none
    ∧ (∀ p ∈ observedPaths rs, inferSchema rs p ≠ .conflict)
    ∧ plannedRootCols rs policy ≠ [] := by
  simp only [planOf] at h
  cases hfind : (observedPaths rs).find? (fun p => inferSchema rs p = Shape.conflict) with
  | some p => rw [hfind] at h; simp at h
  | none =>
    rw [hfind] at h
    cases hdup : firstNameDup root sep (arrayPsOf rs) [] with
    | some p => rw [hdup] at h; simp at h
    | none =>
      rw [hdup] at h
      by_cases hemp : (plannedRootCols rs policy).isEmpty
      · rw [if_pos hemp] at h; simp at h
      · rw [if_neg hemp] at h
        refine ⟨(Except.ok.inj h).symm, rfl, ?_, ?_⟩
        · intro p hp
          have := List.find?_eq_none.mp hfind p hp
          simpa using this
        · intro he
          exact hemp (by simp [he])

theorem relationalizeWith_ok {keys : List Nat} {root sep : String}
    {policy : ArrayRootPolicy} {rs : List Record} {out : Output}
    (h : relationalizeWith keys root sep policy rs = .ok out) :
    ∃ plan, planOf root sep policy rs = .ok plan
      ∧ out.rootName = root
      ∧ out.rootRows = (keys.zip rs).map (fun kr =>
          RootRow.mk kr.1 (rowFor (.struct kr.2) plan.rootCols))
      ∧ out.aux = (collectT plan.forest).map (fun pn => (pn.2, tableRows pn.2
          ((flattenF plan.forest ((keys.zip rs).map (fun kr => (kr.1, Value.struct kr.2)))
            (keyBound keys)).1))) := by
  simp only [relationalizeWith] at h
  cases hp : planOf root sep policy rs with
  | error e => rw [hp] at h; simp at h
  | ok plan =>
    rw [hp] at h
    refine ⟨plan, rfl, ?_, ?_, ?_⟩ <;> rw [← Except.ok.inj h]

theorem mem_directKids {arrs : List Path} {base c : Path} :
    c ∈ directKids arrs base ↔ c ∈ arrs ∧ pathLe base c = true ∧ c ≠ base ∧
      ∀ b ∈ arrs, ¬(pathLe base b = true ∧ pathLe b c = true ∧ b ≠ base ∧ b ≠ c) := by
  simp [directKids, directChild, List.mem_filter, and_assoc]

theorem directKids_incomp {arrs : List Path} {base c1 c2 : Path}
    (h1 : c1 ∈ directKids arrs base) (h2 : c2 ∈ directKids arrs base)
    (hne : c1 ≠ c2) : ¬(pathLe c1 c2 = true) := by
  intro hle
  obtain ⟨hm1, hb1, hnb1, _⟩ := mem_directKids.mp h1
  obtain ⟨_, _, _, hall2⟩ := mem_directKids.mp h2
  exact hall2 c1 hm1 ⟨hb1, hle, hnb1, hne⟩

theorem collectT_forestOfList : ∀ (l : List AuxPlan),
    collectT (forestOfList l) = l.flatMap collectA
  | [] => rfl
  | a :: rest => by
    simp [forestOfList, collectT, collectT_forestOfList rest]

theorem nodesT_forestOfList : ∀ (l : List AuxPlan),
    nodesT (forestOfList l) = l.flatMap nodesA
  | [] => rfl
  | a :: rest => by
    simp [forestOfList, nodesT, nodesT_forestOfList rest]

mutual
theorem collectT_eq_nodes : ∀ (F : AuxForest),
    collectT F = (nodesT F).map (fun nd => (nd.1, nd.2.2.1))
  | .nil => rfl
  | .cons a rest => by
    simp [collectT, nodesT, collectA_eq_nodes a, collectT_eq_nodes rest]

theorem collectA_eq_nodes : ∀ (ap : AuxPlan),
    collectA ap = (nodesA ap).map (fun nd => (nd.1, nd.2.2.1))
  | .node ab rl nm cols kids => by
    simp [collectA, nodesA, collectT_eq_nodes kids]
end

section PlanLemmas

variable (root sep : String) (shapes elemTop : Path → Shape)
variable (scals arrs : List Path) (policy : ArrayRootPolicy)

theorem nodes_sound : ∀ (fuel : Nat) (base : Path)
    (nd : Path × Path × String × List ColSpec),
    nd ∈ (buildKidsL root sep shapes elemTop scals arrs policy fuel base).flatMap nodesA →
    nd.1 ∈ arrs ∧ nd.2.2.1 = tableName root sep nd.1
      ∧ nd.2.2.2 = auxColsFor shapes elemTop scals arrs policy nd.1
      ∧ pathLe base nd.1 = true ∧ nd.1 ≠ base
  | 0, _, _, h => absurd h (by simp [buildKidsL])
  | fuel + 1, base, nd, h => by
    simp only [buildKidsL, List.flatMap_map] at h
    obtain ⟨c, hc, hnd⟩ := List.mem_flatMap.mp h
    obtain ⟨hcarrs, hble, hcnb, _⟩ := mem_directKids.mp hc
    simp only [nodesA] at hnd
    rcases List.mem_cons.mp hnd with rfl | hnd
    · exact ⟨hcarrs, rfl, rfl, hble, hcnb⟩
    · rw [nodesT_forestOfList] at hnd
      obtain ⟨h1, h2, h3, h4, h5⟩ := nodes_sound fuel c nd hnd
      refine ⟨h1, h2, h3, pathLe_trans hble h4, fun he => ?_⟩
      have hl1 := pathLe_lt_length hble (Ne.symm hcnb)
      have hl2 := pathLe_lt_length h4 (Ne.symm h5)
      rw [he] at hl2
      omega

theorem nodes_complete : ∀ (fuel : Nat) (base p : Path),
    p ∈ arrs → pathLe base p = true → p ≠ base → p.length - base.length ≤ fuel →
    ∃ rl, (p, rl, tableName root sep p,
        auxColsFor shapes elemTop scals arrs policy p)
      ∈ (buildKidsL root sep shapes elemTop scals arrs policy fuel base).flatMap nodesA
  | 0, base, p, _, hle, hne, hfuel => by
    have := pathLe_lt_length hle (Ne.symm hne)
    omega
  | fuel + 1, base, p, hmem, hle, hne, hfuel => by
    have hCne : p ∈ arrs.filter (fun q =>
        pathLe base q && pathLe q p && !(q = base : Bool)) := by
      simp [List.mem_filter, hmem, hle, pathLe_refl, hne]
    obtain ⟨c, hcC, hcmin⟩ := exists_minLen _ (List.ne_nil_of_mem hCne)
    simp only [List.mem_filter, Bool.and_eq_true, Bool.not_eq_true',
      decide_eq_false_iff_not] at hcC
    obtain ⟨hcarrs, ⟨hbc, hcp⟩, hcnb⟩ := hcC
    have hgap : c ∈ directKids arrs base := by
      rw [mem_directKids]
      refine ⟨hcarrs, hbc, hcnb, fun b hb ⟨hbb, hbcle, hbnb, hbnc⟩ => ?_⟩
      have hbC : b ∈ arrs.filter (fun q =>
          pathLe base q && pathLe q p && !(q = base : Bool)) := by
        simp [List.mem_filter, hb, hbb, pathLe_trans hbcle hcp, hbnb]
      have hmin := hcmin b hbC
      have := pathLe_lt_length hbcle hbnc
      omega
    by_cases hcp' : c = p
    · refine ⟨c.drop base.length, ?_⟩
      rw [← hcp']
      simp only [buildKidsL, List.flatMap_map]
      refine List.mem_flatMap.mpr ⟨c, hgap, ?_⟩
      simp [nodesA]
    · have hlen1 := pathLe_lt_length hbc (Ne.symm hcnb)
      obtain ⟨rl, hrl⟩ := nodes_complete fuel c p hmem hcp (fun he => hcp' he.symm)
        (by have := pathLe_lt_length hcp hcp'; omega)
      refine ⟨rl, ?_⟩
      simp only [buildKidsL, List.flatMap_map]
      refine List.mem_flatMap.mpr ⟨c, hgap, ?_⟩
      simp only [nodesA]
      refine List.mem_cons_of_mem _ ?_
      rw [nodesT_forestOfList]
      exact hrl

theorem nodes_paths_nodup (harrs : arrs.Nodup) : ∀ (fuel : Nat) (base : Path),
    (((buildKidsL root sep shapes elemTop scals arrs policy fuel base).flatMap
        nodesA).map (fun nd => nd.1)).Nodup
  | 0, _ => by simp [buildKidsL]
  | fuel + 1, base => by
    simp only [buildKidsL, List.flatMap_map, List.map_flatMap]
    rw [List.nodup_flatMap]
    refine ⟨?_, ?_⟩
    · intro c hc
      simp only [Function.comp, nodesA, List.map_cons, List.nodup_cons]
      rw [nodesT_forestOfList]
      refine ⟨fun hmem => ?_, nodes_paths_nodup harrs fuel c⟩
      obtain ⟨nd, hnd, hnde⟩ := List.mem_map.mp hmem
      obtain ⟨_, _, _, hle, hne⟩ := nodes_sound root sep shapes elemTop scals arrs
        policy fuel c nd hnd
      rw [hnde] at hle hne
      exact hne rfl
    · have hkids : (directKids arrs base).Nodup := harrs.filter _
      refine hkids.imp_of_mem ?_
      intro c1 c2 hc1 hc2 hcc
      simp only [Function.onFun]
      intro x hx1 hx2
      simp only [Function.comp, nodesA, List.map_cons] at hx1 hx2
      rw [nodesT_forestOfList] at hx1 hx2
      have hle1 : pathLe c1 x = true := by
        rcases List.mem_cons.mp hx1 with rfl | hx1
        · exact pathLe_refl x
        · obtain ⟨nd, hnd, rfl⟩ := List.mem_map.mp hx1
          exact (nodes_sound root sep shapes elemTop scals arrs policy fuel c1 nd hnd).2.2.2.1
      have hle2 : pathLe c2 x = true := by
        rcases List.mem_cons.mp hx2 with rfl | hx2
        · exact pathLe_refl x
        · obtain ⟨nd, hnd, rfl⟩ := List.mem_map.mp hx2
          exact (nodes_sound root sep shapes elemTop scals arrs policy fuel c2 nd hnd).2.2.2.1
      rcases pathLe_of_common hle1 hle2 with h | h
      · exact directKids_incomp hc1 hc2 hcc h
      · exact directKids_incomp hc2 hc1 (Ne.symm hcc) h

end PlanLemmas

theorem arrayPsOf_nodup (rs : List Record) : (arrayPsOf rs).Nodup :=
  (dedupFirst_nodup _).filter _

mutual
theorem valuePaths_ne_nil : ∀ (v : Value), ∀ p ∈ valuePaths v, p ≠ []
  | .null, p, hp => absurd hp (List.not_mem_nil p)
  | .scalar _ _, p, hp => absurd hp (List.not_mem_nil p)
  | .struct fs, p, hp => fieldsPaths_ne_nil fs p hp
  | .arr es, p, hp => elemsPaths_ne_nil es p hp

theorem fieldsPaths_ne_nil : ∀ (fs : Fields), ∀ p ∈ fieldsPaths fs, p ≠ []
  | .cons n v fs, p, hp => by
    simp only [fieldsPaths, List.cons_append, List.mem_cons, List.mem_append] at hp
    rcases hp with rfl | hp | hp
    · simp
    · obtain ⟨q, _, rfl⟩ := List.mem_map.mp hp
      simp
    · exact fieldsPaths_ne_nil fs p hp

theorem elemsPaths_ne_nil : ∀ (es : Elems), ∀ p ∈ elemsPaths es, p ≠ []
  | .cons v es, p, hp => by
    rcases List.mem_append.mp hp with hp | hp
    · exact valuePaths_ne_nil v p hp
    · exact elemsPaths_ne_nil es p hp
end

theorem observedPaths_ne_nil {rs : List Record} : ∀ p ∈ observedPaths rs, p ≠ [] := by
  intro p hp
  obtain ⟨r, _, hpr⟩ := List.mem_flatMap.mp (mem_dedupFirst.mp hp)
  exact fieldsPaths_ne_nil r p hpr

theorem mem_arrayPsOf {rs : List Record} {p : Path} :
    p ∈ arrayPsOf rs ↔ p ∈ observedPaths rs ∧ inferSchema rs p = Shape.arrayS := by
  simp [arrayPsOf, List.mem_filter]

theorem le_maxPathLen : ∀ {ps : List Path} {p : Path}, p ∈ ps → p.length ≤ maxPathLen ps
  | [], p, hp => absurd hp (List.not_mem_nil p)
  | q :: ps, p, hp => by
    rcases List.mem_cons.mp hp with rfl | hp
    · simp only [maxPathLen, List.foldr_cons]
      omega
    · have := le_maxPathLen hp
      simp only [maxPathLen, List.foldr_cons]
      simp only [maxPathLen] at this
      omega

theorem scalarColsFor_mem {shapes : Path → Shape} {scals arrs : List Path} {base q : Path}
    (hq : q ∈ scals) (ho : ownedBy arrs base q = true) :
    ∃ c ∈ scalarColsFor shapes scals arrs base, ColSpec.crel c = q.drop base.length := by
  have hf : q ∈ scals.filter (fun x => ownedBy arrs base x) := List.mem_filter.mpr ⟨hq, ho⟩
  refine ⟨_, List.mem_map_of_mem _ hf, ?_⟩
  cases hsh : shapes q <;> simp [ColSpec.crel, hsh]

theorem mem_scalarish {rs : List Record} {q : Path} :
    q ∈ scalarish rs ↔ q ∈ observedPaths rs ∧
      ((∃ k, inferSchema rs q = Shape.scalarS k) ∨ inferSchema rs q = Shape.absent) := by
  rw [scalarish, List.mem_filter]
  constructor
  · rintro ⟨h1, h2⟩
    refine ⟨h1, ?_⟩
    cases hsh : inferSchema rs q <;> simp [hsh] at h2 ⊢
  · rintro ⟨h1, h2⟩
    refine ⟨h1, ?_⟩
    rcases h2 with ⟨k, hk⟩ | hk <;> simp [hk]

theorem plan_forest_eq {root sep : String} {policy : ArrayRootPolicy}
    {rs : List Record} {plan : TablePlan} (h : planOf root sep policy rs = .ok plan) :
    plan.forest = forestOfList (buildKidsL root sep (inferSchema rs) (inferElemTop rs)
      (scalarish rs) (arrayPsOf rs) policy (maxPathLen (arrayPsOf rs) + 1) [])
    ∧ plan.rootCols = plannedRootCols rs policy ∧ plan.rootName = root := by
  obtain ⟨hplan, _, _, _⟩ := planOf_ok h
  rw [hplan]
  exact ⟨rfl, rfl, rfl⟩

theorem plan_nodes_sound {root sep : String} {policy : ArrayRootPolicy}
    {rs : List Record} {plan : TablePlan} (h : planOf root sep policy rs = .ok plan) :
    ∀ nd ∈ nodesT plan.forest, nd.1 ∈ arrayPsOf rs
      ∧ nd.2.2.1 = tableName root sep nd.1
      ∧ nd.2.2.2 = auxColsFor (inferSchema rs) (inferElemTop rs) (scalarish rs)
          (arrayPsOf rs) policy nd.1 := by
  intro nd hnd
  rw [(plan_forest_eq h).1, nodesT_forestOfList] at hnd
  obtain ⟨h1, h2, h3, _, _⟩ := nodes_sound root sep (inferSchema rs) (inferElemTop rs)
    (scalarish rs) (arrayPsOf rs) policy _ [] nd hnd
  exact ⟨h1, h2, h3⟩

theorem plan_nodes_complete {root sep : String} {policy : ArrayRootPolicy}
    {rs : List Record} {plan : TablePlan} (h : planOf root sep policy rs = .ok plan)
    {p : Path} (hp : p ∈ arrayPsOf rs) :
    ∃ rl, (p, rl, tableName root sep p,
        auxColsFor (inferSchema rs) (inferElemTop rs) (scalarish rs)
          (arrayPsOf rs) policy p) ∈ nodesT plan.forest := by
  rw [(plan_forest_eq h).1, nodesT_forestOfList]
  refine nodes_complete root sep (inferSchema rs) (inferElemTop rs) (scalarish rs)
    (arrayPsOf rs) policy _ [] p hp rfl
    (observedPaths_ne_nil p (mem_arrayPsOf.mp hp).1) ?_
  have := le_maxPathLen hp
  simp only [List.length_nil]
  omega

theorem plan_names_nodup {root sep : String} {policy : ArrayRootPolicy}
    {rs : List Record} {plan : TablePlan} (h : planOf root sep policy rs = .ok plan) :
    ((collectT plan.forest).map Prod.snd).Nodup := by
  obtain ⟨_, hdup, _, _⟩ := planOf_ok h
  have hnames := (firstNameDup_none root sep (arrayPsOf rs) [] hdup).1
  have hsound := fun nd hnd => nodes_sound root sep (inferSchema rs) (inferElemTop rs)
    (scalarish rs) (arrayPsOf rs) policy (maxPathLen (arrayPsOf rs) + 1) [] nd hnd
  rw [(plan_forest_eq h).1, collectT_eq_nodes, nodesT_forestOfList, List.map_map]
  show (((buildKidsL root sep (inferSchema rs) (inferElemTop rs) (scalarish rs)
      (arrayPsOf rs) policy (maxPathLen (arrayPsOf rs) + 1) []).flatMap nodesA).map
      (fun nd => nd.2.2.1)).Nodup
  have heq : ((buildKidsL root sep (inferSchema rs) (inferElemTop rs) (scalarish rs)
        (arrayPsOf rs) policy (maxPathLen (arrayPsOf rs) + 1) []).flatMap nodesA).map
        (fun nd => nd.2.2.1)
      = (((buildKidsL root sep (inferSchema rs) (inferElemTop rs) (scalarish rs)
        (arrayPsOf rs) policy (maxPathLen (arrayPsOf rs) + 1) []).flatMap nodesA).map
        (fun nd => nd.1)).map (tableName root sep) := by
    rw [List.map_map]
    exact List.map_congr_left (fun nd hnd => (hsound nd hnd).2.1)
  rw [heq]
  refine nodup_map_of_subset (tableName root sep) ?_ ?_ hnames
  · exact nodes_paths_nodup root sep (inferSchema rs) (inferElemTop rs) (scalarish rs)
      (arrayPsOf rs) policy (arrayPsOf_nodup rs) _ []
  · intro x hx
    obtain ⟨nd, hnd, rfl⟩ := List.mem_map.mp hx
    exact (hsound nd hnd).1

/-- Claim C5: for every successfully planned schema, the table plan maps each
array-typed field path, at any nesting depth, to its own auxiliary table
named by the root name and the path segments joined with the separator, the
generated table names are pairwise distinct, every scalar or always-null path
is mapped to a column of the root table or of its innermost enclosing
array's table, and two distinct array paths whose generated names collide
make the planner raise `SchemaConflictError` instead of silently resolving. -/
theorem c5_planner_tables_and_conflicts :
    (∀ (root sep : String) (policy : ArrayRootPolicy) (rs : List Record)
        (plan : TablePlan), planOf root sep policy rs = .ok plan →
      ((∀ p : Path, (p, tableName root sep p) ∈ collectT plan.forest
          ↔ p ∈ arrayPsOf rs)
        ∧ (∀ pn ∈ collectT plan.forest,
            pn.2 = tableName root sep pn.1 ∧ pn.1 ∈ arrayPsOf rs)
        ∧ ((collectT plan.forest).map Prod.snd).Nodup
        ∧ (∀ q ∈ scalarish rs, q ∈ planColsAbs plan)))
    ∧ (∀ (root sep : String) (policy : ArrayRootPolicy) (rs : List Record),
        (∀ p ∈ observedPaths rs, inferSchema rs p ≠ .conflict) →
        (∃ p ∈ arrayPsOf rs, ∃ q ∈ arrayPsOf rs, p ≠ q
          ∧ tableName root sep p = tableName root sep q) →
        ∃ x, planOf root sep policy rs = .error (.schemaConflict x)) := by
  constructor
  · intro root sep policy rs plan h
    have hsound := plan_nodes_sound h
    refine ⟨?_, ?_, plan_names_nodup h, ?_⟩
    · intro p
      constructor
      · intro hmem
        rw [collectT_eq_nodes] at hmem
        obtain ⟨nd, hnd, hnde⟩ := List.mem_map.mp hmem
        have := (hsound nd hnd).1
        have hfst : nd.1 = p := congrArg Prod.fst hnde
        rwa [hfst] at this
      · intro hp
        obtain ⟨rl, hrl⟩ := plan_nodes_complete h hp
        rw [collectT_eq_nodes]
        exact List.mem_map.mpr ⟨_, hrl, rfl⟩
    · intro pn hpn
      rw [collectT_eq_nodes] at hpn
      obtain ⟨nd, hnd, rfl⟩ := List.mem_map.mp hpn
      exact ⟨(hsound nd hnd).2.1, (hsound nd hnd).1⟩
    · intro q hq
      obtain ⟨hqobs, _⟩ := mem_scalarish.mp hq
      by_cases hl : (arrayPsOf rs).filter (fun b => pathLe b q && !(b = q : Bool)) = []
      · have hown : ownedBy (arrayPsOf rs) [] q = true := by
          simp only [ownedBy, decide_eq_true_eq]
          refine ⟨rfl, observedPaths_ne_nil q hqobs, ?_⟩
          rintro b hb ⟨_, h2, _, h4⟩
          have hbf : b ∈ (arrayPsOf rs).filter
              (fun b => pathLe b q && !(b = q : Bool)) := by
            simp [List.mem_filter, hb, h2, h4]
          rw [hl] at hbf
          exact absurd hbf (List.not_mem_nil b)
        obtain ⟨c, hc, hcrel⟩ := scalarColsFor_mem hq hown
        refine List.mem_append_left _ ?_
        rw [(plan_forest_eq h).2.1]
        refine List.mem_map.mpr ⟨c, List.mem_append_left _ hc, ?_⟩
        rw [hcrel]
        simp
      · obtain ⟨c, hcmem, hcmax⟩ := exists_maxLen _ hl
        simp only [List.mem_filter, Bool.and_eq_true, Bool.not_eq_true',
          decide_eq_false_iff_not] at hcmem
        obtain ⟨hcarrs, hcle, hcne⟩ := hcmem
        obtain ⟨rl, hrl⟩ := plan_nodes_complete h hcarrs
        have hown : ownedBy (arrayPsOf rs) c q = true := by
          simp only [ownedBy, decide_eq_true_eq]
          refine ⟨hcle, fun he => hcne he.symm, ?_⟩
          rintro b hb ⟨h1, h2, h3, h4⟩
          have hbf : b ∈ (arrayPsOf rs).filter
              (fun b => pathLe b q && !(b = q : Bool)) := by
            simp [List.mem_filter, hb, h2, h4]
          have hble := hcmax b hbf
          have := pathLe_lt_length h1 (Ne.symm h3)
          omega
        obtain ⟨col, hcol, hcolrel⟩ := scalarColsFor_mem hq hown
        refine List.mem_append_right _ ?_
        refine List.mem_flatMap.mpr ⟨_, hrl, ?_⟩
        refine List.mem_map.mpr ⟨col, ?_, ?_⟩
        · exact List.mem_append_left _ (List.mem_append_right _ hcol)
        · rw [hcolrel]
          exact pathLe_append_drop hcle
  · intro root sep policy rs hnc hcoll
    have hfind : (observedPaths rs).find?
        (fun p => inferSchema rs p = Shape.conflict) = none := by
      rw [List.find?_eq_none]
      intro p hp
      simpa using hnc p hp
    cases hdup : firstNameDup root sep (arrayPsOf rs) [] with
    | some x => exact ⟨x, by simp [planOf, hfind, hdup]⟩
    | none =>
      exfalso
      obtain ⟨p, hp, q, hq, hpq, hname⟩ := hcoll
      have hnames := (firstNameDup_none root sep (arrayPsOf rs) [] hdup).1
      exact hpq (List.inj_on_of_nodup_map hnames hp hq hname)

theorem c5_planner_tables_and_conflicts_witness :
    ((∀ p : Path, (p, tableName "hist_root" "_" p) ∈ collectT scenarioPlan.forest
        ↔ p ∈ arrayPsOf [rec10, rec75])
      ∧ (∀ pn ∈ collectT scenarioPlan.forest,
          pn.2 = tableName "hist_root" "_" pn.1 ∧ pn.1 ∈ arrayPsOf [rec10, rec75])
      ∧ ((collectT scenarioPlan.forest).map Prod.snd).Nodup
      ∧ (∀ q ∈ scalarish [rec10, rec75], q ∈ planColsAbs scenarioPlan))
    ∧ (∃ x, planOf "r" "_" .count [recColl] = .error (.schemaConflict x)) :=
  ⟨c5_planner_tables_and_conflicts.1 "hist_root" "_" .count [rec10, rec75]
      scenarioPlan rfl,
   c5_planner_tables_and_conflicts.2 "r" "_" .count [recColl] (by decide)
      ⟨["a", "b"], by decide, ["a_b"], by decide, by decide, by decide⟩⟩

theorem zip_map_fst_sublist {α β : Type} :
    ∀ (l1 : List α) (l2 : List β), ((l1.zip l2).map Prod.fst).Sublist l1
  | [], _ => by simp
  | _ :: _, [] => by simp
  | a :: l1, b :: l2 => by
    simp only [List.zip_cons_cons, List.map_cons]
    exact (zip_map_fst_sublist l1 l2).cons₂ a

theorem elemCount_eq_length (v : Value) : elemCount v = (elemsList' v).length := by
  cases v <;> rfl

theorem filter_fst_length_zero {β : Type} {a : Nat} :
    ∀ {l : List (Nat × β)}, a ∉ l.map Prod.fst →
      l.filter (fun x => x.1 = a) = []
  | [], _ => rfl
  | x :: l, h => by
    simp only [List.map_cons, List.mem_cons, not_or] at h
    have hne : ¬x.1 = a := fun he => h.1 he.symm
    rw [List.filter_cons_of_neg (by simpa using hne)]
    exact filter_fst_length_zero h.2

theorem filter_fst_length_one {β : Type} {a : Nat} :
    ∀ {l : List (Nat × β)}, (l.map Prod.fst).Nodup → a ∈ l.map Prod.fst →
      (l.filter (fun x => x.1 = a)).length = 1
  | [], _, hm => absurd hm (List.not_mem_nil a)
  | x :: l, hnd, hm => by
    simp only [List.map_cons, List.nodup_cons] at hnd
    by_cases hxa : x.1 = a
    · have h0 : l.filter (fun x => x.1 = a) = [] :=
        filter_fst_length_zero (hxa ▸ hnd.1)
      rw [List.filter_cons_of_pos (by simpa using hxa), h0]
      rfl
    · rcases List.mem_cons.mp hm with rfl | hm
      · exact absurd rfl hxa
      · show (List.filter (fun x => x.1 = a) (x :: l)).length = 1
        rw [List.filter_cons_of_neg (by simpa using hxa)]
        exact filter_fst_length_one hnd.2 hm

/-- Claim C3: within each auxiliary table of a flatten run the `(id, index)`
pairs of the rows are pairwise distinct, and the surrogate keys assigned to
the input records (the root rows' keys) are pairwise distinct, whenever the
supplied key list is duplicate-free (as the default generator's is). -/
theorem c3_key_and_index_uniqueness (keys : List Nat) (root sep : String)
    (policy : ArrayRootPolicy) (rs : List Record) (out : Output)
    (hok : relationalizeWith keys root sep policy rs = .ok out)
    (hkeys : keys.Nodup) :
    (∀ t rows, (t, rows) ∈ out.aux →
      (rows.map (fun r => (r.id, r.index))).Nodup)
    ∧ (out.rootRows.map (fun r => r.key)).Nodup := by
  obtain ⟨plan, hpl, _, hroot, haux⟩ := relationalizeWith_ok hok
  have hnd := plan_names_nodup hpl
  have hzfst : ((keys.zip rs).map Prod.fst).Nodup :=
    (zip_map_fst_sublist keys rs).nodup hkeys
  have hownfst : (((keys.zip rs).map (fun kr => (kr.1, Value.struct kr.2))).map
      Prod.fst).Nodup := by
    rw [List.map_map]
    exact hzfst
  constructor
  · intro t rows hrows
    rw [haux] at hrows
    obtain ⟨pn, hpn, hpe⟩ := List.mem_map.mp hrows
    have hrw : rows = tableRows pn.2
        ((flattenF plan.forest ((keys.zip rs).map (fun kr => (kr.1, Value.struct kr.2)))
          (keyBound keys)).1) := (congrArg Prod.snd hpe).symm
    rw [hrw]
    exact flattenF_pairs_nodup plan.forest _ (keyBound keys) pn.2 hnd hownfst
  · rw [hroot, List.map_map]
    exact hzfst

theorem c3_key_and_index_uniqueness_witness :
    (∀ t rows, (t, rows) ∈ scenarioOutDefault.aux →
      (rows.map (fun r => (r.id, r.index))).Nodup)
    ∧ (scenarioOutDefault.rootRows.map (fun r => r.key)).Nodup :=
  c3_key_and_index_uniqueness (List.range 2) "hist_root" "_" .count [rec10, rec75]
    scenarioOutDefault rfl (by decide)

/-- Claim C4 counterexample: flattening a record with an array nested inside
a struct inside an array produces the nested auxiliary table `r_a_b` whose
single row carries the intermediate key `1` of its parent element, not the
surrogate key of any root row (the only root key is `0`): an auxiliary-table
row whose `id` equals the surrogate key of no root-table row. -/
theorem c4_nested_table_counterexample :
    outputOf (relationalize "r" "_" .count [recNested]) = some ⟨"r",
        [⟨0, [("a", .cint 1)]⟩],
        [("r_a", [⟨0, 0, [("c", .clit .string "x"), ("b", .cint 1)]⟩]),
         ("r_a_b", [⟨1, 0, [("val", .clit .integer "1")]⟩])]⟩
    ∧ (auxRowsOf (relationalize "r" "_" .count [recNested]) "r_a_b").map
        (fun r => r.id) = [1]
    ∧ rootKeysOf (relationalize "r" "_" .count [recNested]) = [0]
    ∧ 1 ∉ rootKeysOf (relationalize "r" "_" .count [recNested]) :=
  ⟨by decide, by decide, by decide, by decide⟩

/-- Claim C4 (amended): the round-trip linkage restricted to the tables of
top-level array paths (a nested array's table references its parent
element's intermediate key, not a root key): every row of such a table has
an `id` equal to the surrogate key of exactly one root row, and for every
record the number of rows of that table carrying the record's key equals the
number of elements of the record's array at that path, with zero rows (and
no null-index row, indices being total naturals) when the array is absent or
empty. -/
theorem c4_round_trip_linkage (keys : List Nat) (root sep : String)
    (policy : ArrayRootPolicy) (rs : List Record) (out : Output) (p : Path)
    (rows : List AuxRow)
    (hok : relationalizeWith keys root sep policy rs = .ok out)
    (hkeys : keys.Nodup)
    (hp : TopLevelArr rs p)
    (hmem : (tableName root sep p, rows) ∈ out.aux) :
    (∀ row ∈ rows, (out.rootRows.filter (fun rr => rr.key = row.id)).length = 1)
    ∧ (∀ k r, (k, r) ∈ keys.zip rs →
        (rows.filter (fun row => row.id = k)).length
          = elemCount (valueAt (.struct r) p)
        ∧ (elemCount (valueAt (.struct r) p) = 0 →
            rows.filter (fun row => row.id = k) = [])) := by
  obtain ⟨plan, hpl, _, hroot, haux⟩ := relationalizeWith_ok hok
  have hndnames := plan_names_nodup hpl
  have hzfst : ((keys.zip rs).map Prod.fst).Nodup :=
    (zip_map_fst_sublist keys rs).nodup hkeys
  have hownfst : (((keys.zip rs).map (fun kr => (kr.1, Value.struct kr.2))).map
      Prod.fst).Nodup := by
    rw [List.map_map]
    exact hzfst
  rw [haux] at hmem
  obtain ⟨pn, hpn, hpe⟩ := List.mem_map.mp hmem
  have hname2 : pn.2 = tableName root sep p := congrArg Prod.fst hpe
  have hrows0 : rows = tableRows pn.2
      ((flattenF plan.forest ((keys.zip rs).map (fun kr => (kr.1, Value.struct kr.2)))
        (keyBound keys)).1) := (congrArg Prod.snd hpe).symm
  have hpmem : (p, tableName root sep p) ∈ collectT plan.forest := by
    obtain ⟨rl, hrl⟩ := plan_nodes_complete hpl hp.1
    rw [collectT_eq_nodes]
    exact List.mem_map.mpr ⟨_, hrl, rfl⟩
  have hdk : p ∈ directKids (arrayPsOf rs) [] := by
    rw [mem_directKids]
    refine ⟨hp.1, rfl, observedPaths_ne_nil p (mem_arrayPsOf.mp hp.1).1, ?_⟩
    rintro b hb ⟨_, h2, _, h4⟩
    exact h4 (hp.2 b hb h2)
  have hnodemem : AuxPlan.node p (p.drop (List.length ([] : Path)))
      (tableName root sep p)
      (auxColsFor (inferSchema rs) (inferElemTop rs) (scalarish rs)
        (arrayPsOf rs) policy p)
      (forestOfList (buildKidsL root sep (inferSchema rs) (inferElemTop rs)
        (scalarish rs) (arrayPsOf rs) policy (maxPathLen (arrayPsOf rs)) p))
      ∈ buildKidsL root sep (inferSchema rs) (inferElemTop rs) (scalarish rs)
        (arrayPsOf rs) policy (maxPathLen (arrayPsOf rs) + 1) [] := by
    simp only [buildKidsL]
    exact List.mem_map.mpr ⟨p, hdk, rfl⟩
  have hforest := (plan_forest_eq hpl).1
  have htr : tableRows (tableName root sep p)
      ((flattenF plan.forest ((keys.zip rs).map (fun kr => (kr.1, Value.struct kr.2)))
        (keyBound keys)).1)
      = ownRows (p.drop (List.length ([] : Path)))
          (auxColsFor (inferSchema rs) (inferElemTop rs) (scalarish rs)
            (arrayPsOf rs) policy p)
          ((keys.zip rs).map (fun kr => (kr.1, Value.struct kr.2))) := by
    rw [hforest]
    exact flattenF_at_member _ _ _ hnodemem (by rw [← hforest]; exact hndnames)
  have hrows : rows = ownRows p
      (auxColsFor (inferSchema rs) (inferElemTop rs) (scalarish rs)
        (arrayPsOf rs) policy p)
      ((keys.zip rs).map (fun kr => (kr.1, Value.struct kr.2))) := by
    rw [hrows0, hname2, htr]
    rfl
  constructor
  · intro row hrow
    rw [hrows] at hrow
    have hid : row.id ∈ ((keys.zip rs).map
        (fun kr => (kr.1, Value.struct kr.2))).map Prod.fst := ownRows_id hrow
    rw [List.map_map] at hid
    rw [hroot, List.filter_map, List.length_map]
    exact filter_fst_length_one hzfst hid
  · intro k r hkr
    have hmem2 : (k, Value.struct r) ∈ (keys.zip rs).map
        (fun kr => (kr.1, Value.struct kr.2)) :=
      List.mem_map.mpr ⟨(k, r), hkr, rfl⟩
    have hlen : (rows.filter (fun row => row.id = k)).length
        = elemCount (valueAt (.struct r) p) := by
      rw [hrows, ownRows_filter_length _ _ hownfst hmem2, elemCount_eq_length]
    refine ⟨hlen, fun h0 => ?_⟩
    rw [← List.length_eq_zero, hlen, h0]

theorem c4_round_trip_linkage_witness :
    (∀ row ∈ [AuxRow.mk 0 0 [("type", Cell.clit .string "fax"),
          ("value", Cell.clit .string "202-228-3027")],
        AuxRow.mk 0 1 [("type", Cell.clit .string "phone"),
          ("value", Cell.clit .string "202-224-6542")],
        AuxRow.mk 1 0 [("type", Cell.clit .string "fax"),
          ("value", Cell.clit .string "202-224-6747")]],
      (scenarioOutDefault.rootRows.filter (fun rr => rr.key = row.id)).length = 1)
    ∧ (∀ k r, (k, r) ∈ (List.range 2).zip [rec10, rec75] →
        (([AuxRow.mk 0 0 [("type", Cell.clit .string "fax"),
            ("value", Cell.clit .string "202-228-3027")],
          AuxRow.mk 0 1 [("type", Cell.clit .string "phone"),
            ("value", Cell.clit .string "202-224-6542")],
          AuxRow.mk 1 0 [("type", Cell.clit .string "fax"),
            ("value", Cell.clit .string "202-224-6747")]].filter
            (fun row => row.id = k)).length
          = elemCount (valueAt (.struct r) ["contact_details"])
        ∧ (elemCount (valueAt (.struct r) ["contact_details"]) = 0 →
            [AuxRow.mk 0 0 [("type", Cell.clit .string "fax"),
              ("value", Cell.clit .string "202-228-3027")],
            AuxRow.mk 0 1 [("type", Cell.clit .string "phone"),
              ("value", Cell.clit .string "202-224-6542")],
            AuxRow.mk 1 0 [("type", Cell.clit .string "fax"),
              ("value", Cell.clit .string "202-224-6747")]].filter
              (fun row => row.id = k) = []))) :=
  c4_round_trip_linkage (List.range 2) "hist_root" "_" .count [rec10, rec75]
    scenarioOutDefault ["contact_details"] _ rfl (by decide)
    ⟨by decide, by decide⟩ (by decide)

theorem rowFor_lookup (v : Value) :
    ∀ {cols : List ColSpec} {c : ColSpec}, (cols.map ColSpec.cname).Nodup →
      c ∈ cols → List.lookup c.cname (rowFor v cols) = some (cellFor v c)
  | [], _, _, hc => absurd hc (List.not_mem_nil _)
  | c' :: rest, c, hnd, hc => by
    simp only [List.map_cons, List.nodup_cons] at hnd
    simp only [rowFor, List.map_cons, List.lookup_cons]
    rcases List.mem_cons.mp hc with rfl | hc
    · simp
    · have hne : c'.cname ≠ c.cname := by
        intro he
        exact hnd.1 (he ▸ List.mem_map_of_mem ColSpec.cname hc)
      have hne' : (c.cname == c'.cname) = false := beq_eq_false_iff_ne.mpr (Ne.symm hne)
      simp only [hne']
      exact rowFor_lookup v hnd.2 hc

theorem topLevel_directKids {rs : List Record} {p : Path} (hp : TopLevelArr rs p) :
    p ∈ directKids (arrayPsOf rs) [] := by
  rw [mem_directKids]
  refine ⟨hp.1, rfl, observedPaths_ne_nil p (mem_arrayPsOf.mp hp.1).1, ?_⟩
  rintro b hb ⟨_, h2, _, h4⟩
  exact h4 (hp.2 b hb h2)

theorem countCol_mem_plannedRootCols {rs : List Record} {p : Path}
    (hp : TopLevelArr rs p) :
    ColSpec.countCol (colNameOf p) p ∈ plannedRootCols rs .count := by
  refine List.mem_append_right _ ?_
  exact List.mem_map.mpr ⟨p, topLevel_directKids hp, rfl⟩

/-- Claim C2 counterexample: the nested array path `a.b` is planned as its
own auxiliary table, yet the root-table row emitted for the record has only
the column `a` (the top-level array's count): there is no root column named
after the nested path, so the claim fails for non-top-level array paths. -/
theorem c2_nested_array_counterexample :
    ["a", "b"] ∈ arrayPsOf [recNested]
    ∧ outputOf (relationalize "r" "_" .count [recNested]) = some ⟨"r",
        [⟨0, [("a", .cint 1)]⟩],
        [("r_a", [⟨0, 0, [("c", .clit .string "x"), ("b", .cint 1)]⟩]),
         ("r_a_b", [⟨1, 0, [("val", .clit .integer "1")]⟩])]⟩
    ∧ List.lookup (colNameOf ["a", "b"]) [("a", Cell.cint 1)] = none
    ∧ ([("a", Cell.cint 1)] : List (String × Cell)).map Prod.fst = ["a"] :=
  ⟨by decide, by decide, by decide, by decide⟩

/-- Claim C2 (amended): restricted to top-level array paths (a nested
array's count surfaces in its enclosing auxiliary table, not in the root
row): under the default `count` policy the root row emitted for every record
contains, in the column named after each top-level array path, an integer
equal to the number of elements of the record's array at that path — the
column is present as an integer, never omitted. -/
theorem c2_root_count_columns (keys : List Nat) (root sep : String)
    (rs : List Record) (out : Output) (p : Path)
    (hok : relationalizeWith keys root sep .count rs = .ok out)
    (hp : TopLevelArr rs p)
    (hnd : ((plannedRootCols rs .count).map ColSpec.cname).Nodup) :
    out.rootRows = (keys.zip rs).map (fun kr =>
      RootRow.mk kr.1 (rowFor (.struct kr.2) (plannedRootCols rs .count)))
    ∧ ∀ k r, (k, r) ∈ keys.zip rs →
        List.lookup (colNameOf p) (rowFor (.struct r) (plannedRootCols rs .count))
          = some (.cint (elemCount (valueAt (.struct r) p))) := by
  obtain ⟨plan, hpl, _, hroot, _⟩ := relationalizeWith_ok hok
  have hcols := (plan_forest_eq hpl).2.1
  constructor
  · rw [hroot, hcols]
  · intro k r _
    have hmemcol : ColSpec.countCol (colNameOf p) p ∈ plannedRootCols rs .count :=
      countCol_mem_plannedRootCols hp
    have hlk := rowFor_lookup (Value.struct r) hnd hmemcol
    simpa [ColSpec.cname, cellFor] using hlk

theorem c2_root_count_columns_witness :
    scenarioOutDefault.rootRows = ((List.range 2).zip [rec10, rec75]).map (fun kr =>
      RootRow.mk kr.1 (rowFor (.struct kr.2) (plannedRootCols [rec10, rec75] .count)))
    ∧ ∀ k r, (k, r) ∈ (List.range 2).zip [rec10, rec75] →
        List.lookup (colNameOf ["contact_details"])
            (rowFor (.struct r) (plannedRootCols [rec10, rec75] .count))
          = some (.cint (elemCount (valueAt (.struct r) ["contact_details"]))) :=
  c2_root_count_columns (List.range 2) "hist_root" "_" [rec10, rec75]
    scenarioOutDefault ["contact_details"] rfl ⟨by decide, by decide⟩ (by decide)

end Reassure
